import Mathlib

/-!
Verification development for the dousei train-commute optimizer.

The Python source is shallowly embedded:

* Python `dict`s become insertion-ordered association lists with
  first-occurrence lookup (`dictLookup`) and in-place update (`updD`);
  all dictionaries in the program are built exclusively through `updD`
  starting from `[]`, so keys are never duplicated and the semantics
  coincide with CPython dicts.
* Python `float` travel times become `ℚ`.  Every time value the program
  manipulates is a sum of the configured constants 2.5 and 5.0 (exactly
  representable binary floats whose sums and comparisons below any
  realistic magnitude are exact), so the rational model is faithful for
  the ordering and arithmetic facts proved here.  Rational division
  models float division; the bounds proved about `balance_score` are
  preserved by float rounding since 0 and 1 are exact floats and float
  division and subtraction are monotone.
* Python `set`s of station ids become duplicate-free lists in insertion
  order.  CPython's set iteration order differs, but no statement below
  depends on the order in which transfer pairs are generated.
* `None` becomes `Option.none`; a Python exception escaping a modelled
  function becomes an `Option`/`Except` error result.
-/

namespace Dousei

/-! ### Dictionary model (Python dict as association list) -/

/-- Lookup of the first binding of a key, the value CPython's `d[k]` /
`d.get(k)` returns. -/
def dictLookup {K V : Type} [DecidableEq K] : List (K × V) → K → Option V
  | [], _ => none
  | (k0, v) :: rest, k => if k = k0 then some v else dictLookup rest k

/-- Update of a key's binding: replaces the value at the first occurrence of
the key, appends a fresh binding otherwise (CPython `d[k] = f(d.get(k))`). -/
def updD {K V : Type} [DecidableEq K] : List (K × V) → K → (Option V → V) → List (K × V)
  | [], k, f => [(k, f none)]
  | (k0, v0) :: rest, k, f =>
    if k = k0 then (k0, f (some v0)) :: rest else (k0, v0) :: updD rest k f

/-- Python `k in d`. -/
def isKey {K V : Type} [DecidableEq K] (d : List (K × V)) (k : K) : Bool :=
  (dictLookup d k).isSome

/-! ### String primitives

Python compares strings by code points; `strLtB` is that lexicographic
comparison on the character lists (kernel-reducible, unlike `String.lt`'s
iterator-based decision procedure).  `lowerChars`/`substrCI` model
`str.lower()` and the substring operator `in`. -/

/-- Lexicographic code-point comparison of character lists (Python `<` on
strings). -/
def strLtB : List Char → List Char → Bool
  | [], [] => false
  | [], _ :: _ => true
  | _ :: _, [] => false
  | x :: xs, y :: ys => x < y || (x == y && strLtB xs ys)

/-- Python `s.lower()`, on the character list. -/
def lowerChars (s : String) : List Char := s.data.map Char.toLower

/-- Boolean infix test on character lists. -/
def listInfixB (xs : List Char) : List Char → Bool
  | [] => xs.isEmpty
  | y :: ys => xs.isPrefixOf (y :: ys) || listInfixB xs ys

/-- Python `needle.lower() in hay.lower()` (case-insensitive substring). -/
def substrCI (needle hay : String) : Bool :=
  listInfixB (lowerChars needle) (lowerChars hay)

/-- Python `abs` on the rational model of floats. -/
def ratAbs (q : ℚ) : ℚ := if q < 0 then -q else q

/-! ### Configuration constants (config.py) -/

def DEFAULT_AVG_TIME_PER_STOP : ℚ := 2.5

def DEFAULT_TRANSFER_TIME : ℚ := 5.0

def DEFAULT_MAX_COMMUTE_TIME : ℚ := 120

def DEFAULT_TOP_N_RESULTS : Nat := 10

/-! ### Data model (commute_optimizer.py) -/

/-- A row of the `stations` table as `build_network`'s first query selects it
(`same_as, title, title_en, railway, latitude, longitude`).  Nullable columns
are `Option`s; coordinates are inert payload modelled as rationals. -/
structure StationRow where
  same_as : Option String
  title : Option String
  title_en : Option String
  railway : Option String
  latitude : Option ℚ
  longitude : Option ℚ
deriving DecidableEq

/-- The `station_order` column after `json.loads`: either malformed JSON
(`continue` in `build_network`) or a list of entries, each carrying the value
of its `odpt:station` key when present.  (A parse result that is valid JSON
but not a list of objects would crash the Python build; no claim concerns
that case and it is outside this model.) -/
inductive StationOrderField where
  | malformed
  | parsed (entries : List (Option String))
deriving DecidableEq

/-- A row of the `railways` table as `build_network`'s second query selects it
(`same_as, title, title_en, station_order`). -/
structure RailwayRow where
  same_as : Option String
  title : Option String
  title_en : Option String
  station_order : Option StationOrderField
deriving DecidableEq

/-- One adjacency-list record of `network_graph` (the dicts appended in
`_process_railway_order` and `_add_transfer_connections`). -/
structure Conn where
  to_station : String
  travel_time : ℚ
  railway : String
  num_stops : Nat
deriving DecidableEq

/-- A value of `station_info[station_id]`. -/
structure StationInfoEntry where
  title : Option String
  title_en : Option String
  railway : Option String
  latitude : Option ℚ
  longitude : Option ℚ
deriving DecidableEq

/-- A value of `railway_info[railway_id]`. -/
structure RailwayInfoEntry where
  title : Option String
  title_en : Option String
deriving DecidableEq

/-- The dataclass `RouteSegment`. -/
structure RouteSegment where
  from_station : String
  to_station : String
  railway : String
  travel_time : ℚ
  num_stops : Nat
deriving DecidableEq

/-- The dataclass `Route`. -/
structure Route where
  segments : List RouteSegment
  total_time : ℚ
  total_stops : Nat
deriving DecidableEq

/-- The dataclass `MeetingPoint`.  `station_name` is an `Option` because
`station_info` titles can be SQL `NULL` (Python `None`). -/
structure MeetingPoint where
  station_id : String
  station_name : Option String
  route_from_a : Route
  route_from_b : Route
  total_time : ℚ
  time_difference : ℚ
  balance_score : ℚ
deriving DecidableEq

/-- The mutable state of a `CommuteOptimizer` after construction
(`network_graph`, `station_info`, `railway_info`, `transfer_stations`). -/
structure Optimizer where
  network_graph : List (String × List Conn)
  station_info : List (String × StationInfoEntry)
  railway_info : List (String × RailwayInfoEntry)
  transfer_stations : List (Option String × List String)
deriving DecidableEq

/-- The empty optimizer state set up in `CommuteOptimizer.__init__`. -/
def emptyOptimizer : Optimizer := ⟨[], [], [], []⟩

/-! ### Graph construction (`build_network` and helpers) -/

/-- Python truthiness of an optional string: `None` and `""` are falsy
(the `if not current_station ... continue` guard). -/
def truthy : Option String → Option String
  | some s => if s = "" then none else some s
  | none => none

/-- Add one id to a `transfer_stations` set (`self.transfer_stations[title].add(station_id)`,
creating the set first when absent). -/
def addToSet (ts : List (Option String × List String)) (title : Option String)
    (id : String) : List (Option String × List String) :=
  updD ts title fun old =>
    match old with
    | none => [id]
    | some ids => if id ∈ ids then ids else ids ++ [id]

/-- Process one station row inside `build_network`'s first loop: rows whose
`same_as` is NULL were already excluded by the SQL `WHERE` clause. -/
def loadStation (O : Optimizer) (r : StationRow) : Optimizer :=
  match r.same_as with
  | none => O
  | some station_id =>
    { O with
      station_info := updD O.station_info station_id fun _ =>
        ⟨r.title, r.title_en, r.railway, r.latitude, r.longitude⟩
      transfer_stations := addToSet O.transfer_stations r.title station_id }

/-- Append one connection record to a station's adjacency list, creating the
list first when the station is not yet a graph key (the
`if ... not in self.network_graph: ... = []` + `append` idiom). -/
def graphAppend (g : List (String × List Conn)) (s : String) (c : Conn) :
    List (String × List Conn) :=
  updD g s fun old =>
    match old with
    | none => [c]
    | some l => l ++ [c]

/-- `_process_railway_order`: for every consecutive pair of entries with
truthy station ids, add a bidirectional connection with the configured
per-stop travel time, the railway id as tag and stop count 1. -/
def process_railway_order (railway : String) :
    List (Option String) → List (String × List Conn) → List (String × List Conn)
  | cur :: next :: rest, g =>
    let g' :=
      match truthy cur, truthy next with
      | some current_station, some next_station =>
        graphAppend
          (graphAppend g current_station
            ⟨next_station, DEFAULT_AVG_TIME_PER_STOP, railway, 1⟩)
          next_station
          ⟨current_station, DEFAULT_AVG_TIME_PER_STOP, railway, 1⟩
      | _, _ => g
    process_railway_order railway (next :: rest) g'
  | _, g => g

/-- Process one railway row inside `build_network`'s second loop: the SQL
`WHERE` clause excludes NULL `same_as`/`station_order`; `railway_info` is
recorded before parsing; malformed JSON skips the railway; an empty parsed
list contributes no edges. -/
def loadRailway (O : Optimizer) (r : RailwayRow) : Optimizer :=
  match r.same_as, r.station_order with
  | some railway_id, some field =>
    let O' := { O with
      railway_info := updD O.railway_info railway_id fun _ => ⟨r.title, r.title_en⟩ }
    match field with
    | .malformed => O'
    | .parsed entries =>
      if entries = [] then O'
      else { O' with
        network_graph := process_railway_order railway_id entries O'.network_graph }
  | _, _ => O

/-- One iteration of `_add_transfer_connections`' innermost loop: add the
bidirectional transfer between `station_a` and `station_b`, each direction
guarded by the source station being a graph key. -/
def addTransferPair (g : List (String × List Conn)) (station_a station_b : String) :
    List (String × List Conn) :=
  let g1 := if isKey g station_a then
      graphAppend g station_a ⟨station_b, DEFAULT_TRANSFER_TIME, "Transfer", 0⟩
    else g
  if isKey g1 station_b then
    graphAppend g1 station_b ⟨station_a, DEFAULT_TRANSFER_TIME, "Transfer", 0⟩
  else g1

/-- The `for i ... for j in range(i+1, ...)` double loop over one name
group's station list. -/
def addTransfersForGroup (g : List (String × List Conn)) :
    List String → List (String × List Conn)
  | [] => g
  | a :: rest => addTransfersForGroup (rest.foldl (fun g' b => addTransferPair g' a b) g) rest

/-- `_add_transfer_connections`: for every name group with more than one
station, connect all pairs. -/
def add_transfer_connections (O : Optimizer) : Optimizer :=
  { O with
    network_graph := O.transfer_stations.foldl
      (fun g p => if 1 < p.2.length then addTransfersForGroup g p.2 else g)
      O.network_graph }

/-- `build_network`, as a function of the two query results it folds over. -/
def build_network (stations : List StationRow) (railways : List RailwayRow) : Optimizer :=
  add_transfer_connections
    (railways.foldl loadRailway (stations.foldl loadStation emptyOptimizer))

/-- Membership of a connection record in the adjacency list of a station
(decidable edge predicate used by every statement about the built graph). -/
def hasEdgeB (g : List (String × List Conn)) (a : String) (c : Conn) : Bool :=
  match dictLookup g a with
  | none => false
  | some l => l.contains c

/-- Propositional form of `hasEdgeB`. -/
def HasEdge (g : List (String × List Conn)) (a : String) (c : Conn) : Prop :=
  hasEdgeB g a c = true

instance (g : List (String × List Conn)) (a : String) (c : Conn) :
    Decidable (HasEdge g a c) :=
  inferInstanceAs (Decidable (_ = true))

/-- Each loaded station id carries one display title: any two station rows
with the same non-NULL canonical identifier agree on the title column. -/
def TitleConsistent (stations : List StationRow) : Prop :=
  ∀ r1 ∈ stations, ∀ r2 ∈ stations,
    r1.same_as.isSome = true → r1.same_as = r2.same_as → r1.title = r2.title

instance (stations : List StationRow) : Decidable (TitleConsistent stations) :=
  inferInstanceAs (Decidable (∀ r1 ∈ stations, ∀ r2 ∈ stations, _ → _ → _))

/-! ### Station search (`search_station`)

`build_network` stores every `station_info` value with all keys present, so
the `.get("title", "")` defaults in the source are dead and the fetched
values are the (possibly `None`) column values.  A `None` title — or a
`None` English title reached because the title did not match — makes Python
call `.lower()` on `None` and raise `AttributeError`; the model returns
`none` for that case. -/

/-- The result-accumulating loop of `search_station`; result tuples are
`(station_id, title, title_en, railway)`. -/
def searchFold (search_term : String) :
    List (String × StationInfoEntry) →
      Option (List (String × String × Option String × Option String))
  | [] => some []
  | (station_id, info) :: rest =>
    match info.title with
    | none => none
    | some title =>
      if substrCI search_term title then
        (searchFold search_term rest).map
          (fun l => (station_id, title, info.title_en, info.railway) :: l)
      else
        match info.title_en with
        | none => none
        | some title_en =>
          if substrCI search_term title_en then
            (searchFold search_term rest).map
              (fun l => (station_id, title, info.title_en, info.railway) :: l)
          else searchFold search_term rest

/-- Stable insertion of `x` in front of the first element `y` with
`le x y`.  With `le x y = ¬(key y < key x)` this reproduces CPython's
stable `sorted`: stable sorts with the same key order are extensionally
equal, so the sorting network used by CPython need not be modelled. -/
def sinsert {α : Type} (le : α → α → Bool) (x : α) : List α → List α
  | [] => [x]
  | y :: ys => if le x y then x :: y :: ys else y :: sinsert le x ys

/-- Stable sort by repeated `sinsert` (extensionally CPython `sorted`). -/
def pySorted {α : Type} (le : α → α → Bool) : List α → List α
  | [] => []
  | x :: xs => sinsert le x (pySorted le xs)

/-- `search_station`: case-insensitive substring search over titles, sorted
by title; `none` models the `AttributeError` raised on a `None` title. -/
def search_station (O : Optimizer) (search_term : String) :
    Option (List (String × String × Option String × Option String)) :=
  (searchFold search_term O.station_info).map
    (pySorted (fun x y => !(strLtB y.2.1.data x.2.1.data)))

/-! ### Shortest paths (`_dijkstra_with_path`)

The heap entries are `(time, station, path_segments)` tuples.  `heapq` pops
the smallest tuple under lexicographic comparison; comparing the third
components would raise `TypeError` (dataclasses without ordering), but the
algorithm pushes an entry for a station only when its recorded time
strictly decreases, so no two live entries agree on `(time, station)` and
the comparison never reaches the paths.  `popMin` therefore selects the
entry minimal under the `(time, station)` lexicographic order.

The loop is driven by explicit fuel; `dijkstra_adequate` below proves the
chosen fuel always empties the queue, so the fuelled loop computes exactly
the Python fixpoint. -/

/-- A priority-queue entry `(time, station, path_segments)`. -/
abbrev Entry := ℚ × String × List RouteSegment

/-- Lexicographic `(time, station)` comparison of queue entries. -/
def entryLeB (e1 e2 : Entry) : Bool :=
  e1.1 < e2.1 || (e1.1 == e2.1 && (e1.2.1 == e2.2.1 || strLtB e1.2.1.data e2.2.1.data))

/-- Remove a minimal entry (first occurrence among equals) from the queue. -/
def popMin : List Entry → Option (Entry × List Entry)
  | [] => none
  | e :: rest =>
    match popMin rest with
    | none => some (e, [])
    | some (m, rest') => if entryLeB e m then some (e, rest) else some (m, e :: rest')

/-- Total travel time of a segment list. -/
def sumTimes (segs : List RouteSegment) : ℚ := (segs.map RouteSegment.travel_time).sum

/-- `sum(seg.num_stops for seg in path)`. -/
def sumStops (segs : List RouteSegment) : Nat := (segs.map RouteSegment.num_stops).sum

/-- The `RouteSegment` built for one relaxed connection. -/
def relaxSeg (current_station : String) (c : Conn) : RouteSegment :=
  ⟨current_station, c.to_station, c.railway, c.travel_time, c.num_stops⟩

/-- The `Route` recorded for one relaxed connection
(`Route(new_path, new_time, sum of stops)`). -/
def relaxRoute (current_station : String) (current_time : ℚ)
    (path_segments : List RouteSegment) (c : Conn) : Route :=
  ⟨path_segments ++ [relaxSeg current_station c], current_time + c.travel_time,
   sumStops (path_segments ++ [relaxSeg current_station c])⟩

/-- The relaxation of one connection inside the `for connection in ...` loop:
guard `new_time <= max_time`, then update `distances` and push whenever the
station is new or strictly improved. -/
def relaxConn (max_time : ℚ) (current_station : String) (current_time : ℚ)
    (path_segments : List RouteSegment)
    (acc : List (String × ℚ × Route) × List Entry) (c : Conn) :
    List (String × ℚ × Route) × List Entry :=
  let new_time := current_time + c.travel_time
  if new_time ≤ max_time then
    match dictLookup acc.1 c.to_station with
    | none =>
      (updD acc.1 c.to_station fun _ =>
         (new_time, relaxRoute current_station current_time path_segments c),
       acc.2 ++ [(new_time, c.to_station,
         path_segments ++ [relaxSeg current_station c])])
    | some tr =>
      if new_time < tr.1 then
        (updD acc.1 c.to_station fun _ =>
           (new_time, relaxRoute current_station current_time path_segments c),
         acc.2 ++ [(new_time, c.to_station,
           path_segments ++ [relaxSeg current_station c])])
      else acc
  else acc

/-- The mutable loop state: `distances`, the heap, and `visited`. -/
structure DState where
  dist : List (String × ℚ × Route)
  pq : List Entry
  visited : List String
deriving DecidableEq

/-- The `while pq:` loop of `_dijkstra_with_path`, with explicit fuel. -/
def dloop (g : List (String × List Conn)) (max_time : ℚ) : Nat → DState → DState
  | 0, st => st
  | fuel + 1, st =>
    match popMin st.pq with
    | none => st
    | some (e, pqRest) =>
      let current_time := e.1
      let current_station := e.2.1
      let path_segments := e.2.2
      if current_station ∈ st.visited then
        dloop g max_time fuel { st with pq := pqRest }
      else
        let visited' := current_station :: st.visited
        if max_time < current_time then
          dloop g max_time fuel ⟨st.dist, pqRest, visited'⟩
        else
          match dictLookup g current_station with
          | none => dloop g max_time fuel ⟨st.dist, pqRest, visited'⟩
          | some conns =>
            let res := conns.foldl
              (relaxConn max_time current_station current_time path_segments)
              (st.dist, pqRest)
            dloop g max_time fuel ⟨res.1, res.2, visited'⟩

/-- Every station name that can ever occur in the queue: the start plus all
graph keys and edge targets. -/
def graphTargets (g : List (String × List Conn)) : List String :=
  g.foldr (fun p acc => p.1 :: (p.2.map Conn.to_station ++ acc)) []

/-- Support of a run: start station plus all graph names. -/
def dSupport (g : List (String × List Conn)) (start : String) : List String :=
  start :: graphTargets g

/-- Total number of connection records in the graph. -/
def totalDeg (g : List (String × List Conn)) : Nat :=
  (g.map (fun p => p.2.length)).sum

/-- Termination measure of the loop: unvisited support stations weighted by
the worst-case queue growth of one expansion, plus the queue length. -/
def dMeasure (g : List (String × List Conn)) (start : String) (st : DState) : Nat :=
  ((dSupport g start).toFinset \ st.visited.toFinset).card * (1 + totalDeg g) + st.pq.length

/-- Fuel that `dijkstra_adequate` proves sufficient. -/
def dijkstraFuel (g : List (String × List Conn)) (start : String) : Nat :=
  (dSupport g start).length * (1 + totalDeg g) + 2

/-- The initial state: the start station at distance 0 with an empty route,
one queue entry, nothing visited. -/
def initState (start_station : String) : DState :=
  ⟨[(start_station, (0, ⟨[], 0, 0⟩))], [(0, start_station, [])], []⟩

/-- `_dijkstra_with_path`, returning the `distances` mapping
`station_id ↦ (travel_time, Route)`. -/
def dijkstra_with_path (O : Optimizer) (start_station : String) (max_time : ℚ) :
    List (String × ℚ × Route) :=
  (dloop O.network_graph max_time (dijkstraFuel O.network_graph start_station)
    (initState start_station)).dist

/-! ### Dual-source ranking (`find_optimal_stations`)

The model takes the optimizer state directly; in the source an unbuilt
engine first triggers `build_network`, after which the body below runs on
the built state, so every theorem quantifying over `Optimizer` (or over
`build_network` images) covers both paths. -/

/-- Construction of one `MeetingPoint` candidate in the
`for station in common_stations` loop. -/
def mkMeetingPoint (O : Optimizer) (max_time : ℚ) (station : String)
    (time_a : ℚ) (route_a : Route) (time_b : ℚ) (route_b : Route) : MeetingPoint :=
  let total_time := time_a + time_b
  let time_diff := ratAbs (time_a - time_b)
  let balance_score := 1 - time_diff / max_time
  let station_name : Option String :=
    match dictLookup O.station_info station with
    | none => some "Unknown"
    | some info => info.title
  ⟨station, station_name, route_a, route_b, total_time, time_diff, balance_score⟩

/-- `x` precedes-or-ties `y` under the sort key
`(total_time, time_difference)`. -/
def candLeB (x y : MeetingPoint) : Bool :=
  !(y.total_time < x.total_time ||
    (y.total_time == x.total_time && y.time_difference < x.time_difference))

/-- `find_optimal_stations`: run both searches, intersect the reachable
sets minus the two origins, build candidates, sort by
`(total_time, time_difference)` and take the top `top_n`.  (The model
enumerates the common stations in `routes_from_a` key order where CPython
iterates a hash set; candidate multisets agree.) -/
def find_optimal_stations (O : Optimizer) (work_station_a work_station_b : String)
    (top_n : Nat) (max_time : ℚ) : List MeetingPoint :=
  let routes_from_a := dijkstra_with_path O work_station_a max_time
  let routes_from_b := dijkstra_with_path O work_station_b max_time
  let candidates := routes_from_a.foldr
    (fun p acc =>
      if p.1 ≠ work_station_a ∧ p.1 ≠ work_station_b then
        match dictLookup routes_from_b p.1 with
        | some tr => mkMeetingPoint O max_time p.1 p.2.1 p.2.2 tr.1 tr.2 :: acc
        | none => acc
      else acc)
    []
  (pySorted candLeB candidates).take top_n

/-! ### HTTP analyze endpoint (`app.py`, `analyze_commute`) -/

/-- The body of a POST `/api/analyze` request after schema validation. -/
structure AnalyzeRequest where
  station_a : String
  station_b : String
  top_n : Nat
  max_time : ℚ
deriving DecidableEq

/-- A FastAPI `HTTPException` as status code plus detail message. -/
structure HTTPError where
  status_code : Nat
  detail : String
deriving DecidableEq

/-- `analyze_commute` up to its error mapping: the success branch carries
the candidate list (the response formatting adds only presentation data).
The modelled engine is total, so the `except ... 500` wrapper around
`find_optimal_stations` is dead in the model. -/
def analyze_commute (O : Optimizer) (request : AnalyzeRequest) :
    Except HTTPError (List MeetingPoint) :=
  if request.station_a = request.station_b then
    .error ⟨400, "Work stations must be different"⟩
  else if ¬ (isKey O.station_info request.station_a = true) then
    .error ⟨404, "Station A not found: " ++ request.station_a⟩
  else if ¬ (isKey O.station_info request.station_b = true) then
    .error ⟨404, "Station B not found: " ++ request.station_b⟩
  else
    let candidates := find_optimal_stations O request.station_a request.station_b
      request.top_n request.max_time
    if candidates = [] then
      .error ⟨404, "No common reachable stations found. Try increasing max_time."⟩
    else .ok candidates

/-! ### Data fetch client (`data_fetcher.py`)

HTTP traffic is abstracted as an oracle mapping a resource type and an
operator key to either a record list or a raised error (covering network
failures, non-success statuses and the missing-credential `ValueError`,
all of which the `except Exception` in `fetch_operator_data` catches).
Fetched records are opaque payloads of an arbitrary type. -/

/-- The operator keys of `config.OPERATORS`. -/
def OPERATORS : List String := ["JR_EAST", "TOKYO_METRO", "KEIKYU"]

/-- One operator's fetched data set. -/
structure OperatorData (ρ : Type) where
  stations : List ρ
  railways : List ρ
deriving DecidableEq

/-- `fetch_operator_data`: unknown keys raise; any failure inside the `try`
block degrades the operator to empty lists (a failed railway fetch also
discards the already fetched stations, as in the source). -/
def fetch_operator_data {ρ : Type}
    (fetch : String → String → Except String (List ρ)) (operator_key : String) :
    Except String (OperatorData ρ) :=
  if operator_key ∈ OPERATORS then
    match fetch "Station" operator_key with
    | .error _ => .ok ⟨[], []⟩
    | .ok stations =>
      match fetch "Railway" operator_key with
      | .error _ => .ok ⟨[], []⟩
      | .ok railways => .ok ⟨stations, railways⟩
  else .error ("Unknown operator: " ++ operator_key)

/-- `fetch_all_operators` over an explicit key list: each operator is
fetched independently into the result dict; an exception from
`fetch_operator_data` itself (unknown key) aborts the loop. -/
def fetch_all_operators {ρ : Type}
    (fetch : String → String → Except String (List ρ)) (operator_keys : List String) :
    Except String (List (String × OperatorData ρ)) :=
  operator_keys.foldlM
    (fun acc k => (fetch_operator_data fetch k).map fun d => updD acc k fun _ => d)
    []

/-! ### Specification-side predicates -/

/-- The segment list forms a contiguous path from `s` to `v`. -/
def chainFromToB : List RouteSegment → String → String → Bool
  | [], s, v => v == s
  | seg :: rest, s, v => seg.from_station == s && chainFromToB rest seg.to_station v

/-- The segment is an actual edge of the graph. -/
def validSegB (g : List (String × List Conn)) (seg : RouteSegment) : Bool :=
  hasEdgeB g seg.from_station ⟨seg.to_station, seg.travel_time, seg.railway, seg.num_stops⟩

/-- `v` is reachable from `start` along graph edges within total time `T`. -/
def ReachableWithin (g : List (String × List Conn)) (start v : String) (T : ℚ) : Prop :=
  ∃ segs : List RouteSegment, chainFromToB segs start v = true ∧
    (∀ seg ∈ segs, validSegB g seg = true) ∧ sumTimes segs ≤ T

/-- All edge travel times of the graph are nonnegative. -/
def GraphNonneg (g : List (String × List Conn)) : Prop :=
  ∀ a conns, dictLookup g a = some conns → ∀ c ∈ conns, 0 ≤ c.travel_time

/-- The consecutive truthy station pairs of a station-order list — exactly
the pairs `_process_railway_order` connects. -/
def adjPairs : List (Option String) → List (String × String)
  | cur :: next :: rest =>
    (match truthy cur, truthy next with
     | some x, some y => [(x, y)]
     | _, _ => []) ++ adjPairs (next :: rest)
  | _ => []

/-- Loop invariant of `dloop` capturing the classical Dijkstra facts needed
for completeness on nonnegative-weight graphs: recorded distances are within
`[0, max_time]`, every queue entry's station has a recorded distance no
larger than the entry's time, every unvisited recorded station has a queue
entry witnessing its distance, visited distances bound all queued times, and
every visited vertex has had all its in-bound relaxations applied. -/
structure DijInv (g : List (String × List Conn)) (start : String) (maxT : ℚ)
    (st : DState) : Prop where
  bound : ∀ u d r, dictLookup st.dist u = some (d, r) → 0 ≤ d ∧ d ≤ maxT
  pqBound : ∀ e ∈ st.pq, 0 ≤ e.1 ∧ e.1 ≤ maxT
  pqKey : ∀ e ∈ st.pq, ∃ d r, dictLookup st.dist e.2.1 = some (d, r) ∧ d ≤ e.1
  fresh : ∀ u d r, dictLookup st.dist u = some (d, r) → u ∉ st.visited →
    ∃ e ∈ st.pq, e.2.1 = u ∧ e.1 = d
  visLB : ∀ v ∈ st.visited, ∀ d r, dictLookup st.dist v = some (d, r) →
    ∀ e ∈ st.pq, d ≤ e.1
  visDone : ∀ v ∈ st.visited, ∀ d r, dictLookup st.dist v = some (d, r) →
    ∀ conns, dictLookup g v = some conns → ∀ c ∈ conns,
      d + c.travel_time ≤ maxT →
      ∃ d' r', dictLookup st.dist c.to_station = some (d', r') ∧
        d' ≤ d + c.travel_time
  visKeys : ∀ v ∈ st.visited, ∃ d r, dictLookup st.dist v = some (d, r)
  startMem : ∃ d r, dictLookup st.dist start = some (d, r) ∧ d ≤ 0
  ndk : (st.dist.map Prod.fst).Nodup

/-- Loop invariant recording that every stored `Route` and every queued path
is a genuine contiguous graph path from the start whose stored totals match
its segments. -/
structure PathInv (g : List (String × List Conn)) (start : String)
    (st : DState) : Prop where
  distPath : ∀ u d r, dictLookup st.dist u = some (d, r) →
    r.total_time = d ∧ r.total_time = sumTimes r.segments ∧
    r.total_stops = sumStops r.segments ∧
    chainFromToB r.segments start u = true ∧
    ∀ seg ∈ r.segments, validSegB g seg = true
  pqPath : ∀ e ∈ st.pq, sumTimes e.2.2 = e.1 ∧
    chainFromToB e.2.2 start e.2.1 = true ∧
    ∀ seg ∈ e.2.2, validSegB g seg = true

/-- Loop invariant for the time bound alone (holds for arbitrary edge
weights): every recorded distance and queued time is at most `max_time`. -/
structure BoundInv (maxT : ℚ) (st : DState) : Prop where
  distLe : ∀ u d r, dictLookup st.dist u = some (d, r) → d ≤ maxT
  pqLe : ∀ e ∈ st.pq, e.1 ≤ maxT

/-- Loop invariant for termination: queued stations lie in the support. -/
structure WfInv (g : List (String × List Conn)) (start : String)
    (st : DState) : Prop where
  pqSup : ∀ e ∈ st.pq, e.2.1 ∈ dSupport g start

/-- The connection record a transfer pass appends towards station `z`. -/
def transferConn (z : String) : Conn := ⟨z, DEFAULT_TRANSFER_TIME, "Transfer", 0⟩

/-- The connection record a railway hop appends towards station `z`. -/
def railConn (rw z : String) : Conn := ⟨z, DEFAULT_AVG_TIME_PER_STOP, rw, 1⟩

/-- All ordered pairs `(ids[i], ids[j])` with `i < j` — the iteration space of
`_add_transfer_connections`' double loop. -/
def pairsOf : List String → List (String × String)
  | [] => []
  | a :: rest => rest.map (fun b => (a, b)) ++ pairsOf rest

/-! ### Concrete fixtures used by witnesses and counterexamples -/

/-- A station row carrying only an id and a title. -/
def stRow (id : String) (t : Option String) : StationRow :=
  ⟨some id, t, none, none, none, none⟩

/-- A railway row carrying an id and a parsed station order. -/
def rwRow (id : String) (entries : List (Option String)) : RailwayRow :=
  ⟨some id, none, none, some (.parsed entries)⟩

/-- Stations for the transfer counterexample: `S2` shares title `X` but lies
on no railway; `S3` is recorded first under `X`, then re-recorded under
`Y`. -/
def exC1stations : List StationRow :=
  [stRow "S1" (some "X"), stRow "S2" (some "X"), stRow "S3" (some "X"),
   stRow "S3" (some "Y"), stRow "S4" (some "Y")]

/-- One railway containing `S1`, `S3`, `S4`. -/
def exC1railways : List RailwayRow := [rwRow "R1" [some "S1", some "S3", some "S4"]]

/-- The built network of the transfer counterexample. -/
def exC1 : Optimizer := build_network exC1stations exC1railways

/-- Stations with pairwise distinct titles for the railway-edge
counterexample. -/
def exC7stations : List StationRow :=
  [stRow "S1" (some "A1"), stRow "S2" (some "A2"), stRow "S3" (some "A3")]

/-- Two railways: `R1 = [S1, S2, S3]` and a second line `R2 = [S1, S3]`
connecting the endpoints directly. -/
def exC7railways : List RailwayRow :=
  [rwRow "R1" [some "S1", some "S2", some "S3"], rwRow "R2" [some "S1", some "S3"]]

/-- The built network of the railway-edge counterexample. -/
def exC7 : Optimizer := build_network exC7stations exC7railways

/-- A three-station line `A - B - C` with distinct titles. -/
def exLineStations : List StationRow :=
  [stRow "A" (some "Alpha"), stRow "B" (some "Beta"), stRow "C" (some "Gamma")]

/-- The single railway of the line fixture. -/
def exLineRailways : List RailwayRow := [rwRow "L" [some "A", some "B", some "C"]]

/-- The built line network. -/
def exLine : Optimizer := build_network exLineStations exLineRailways

/-- A single station whose English title is NULL (as `insert_stations`
produces when a record has no `odpt:stationTitle` mapping). -/
def exC10stations : List StationRow := [stRow "S1" (some "Abc")]

/-- The built state of the null-title-search fixture. -/
def exC10 : Optimizer := build_network exC10stations []

/-- Two stations sharing the display title `T`, both on one railway — the
well-behaved transfer scenario. -/
def exC1wStations : List StationRow := [stRow "P1" (some "T"), stRow "P2" (some "T")]

/-- The railway containing both same-titled stations. -/
def exC1wRailways : List RailwayRow := [rwRow "R" [some "P1", some "P2"]]

/-- The built network of the well-behaved transfer scenario. -/
def exC1w : Optimizer := build_network exC1wStations exC1wRailways

/-- A concrete fetch oracle for the resilience scenario: the JR East
station request fails, every other request succeeds. -/
def fetchW : String → String → Except String (List Nat)
  | "Station", "JR_EAST" => .error "connection reset"
  | "Station", "TOKYO_METRO" => .ok [10]
  | "Railway", "TOKYO_METRO" => .ok [20]
  | "Station", "KEIKYU" => .ok [30]
  | "Railway", "KEIKYU" => .ok [40]
  | _, _ => .ok []

/-! ## Lemma layer -/

/-! ### Dictionary lemmas -/

theorem dictLookup_updD {K V : Type} [DecidableEq K] (d : List (K × V)) (k : K)
    (f : Option V → V) (k' : K) :
    dictLookup (updD d k f) k' =
      if k' = k then some (f (dictLookup d k)) else dictLookup d k' := by
  induction d with
  | nil =>
    by_cases h : k' = k <;> simp [updD, dictLookup, h]
  | cons hd tl ih =>
    obtain ⟨k0, v0⟩ := hd
    by_cases hk : k = k0
    · subst hk
      by_cases h' : k' = k <;> simp [updD, dictLookup, h']
    · by_cases h' : k' = k0
      · subst h'
        have hne : ¬ k' = k := fun h => hk h.symm
        simp [updD, hk, dictLookup, hne]
      · simp [updD, hk, dictLookup, h', ih]

theorem mem_updD {K V : Type} [DecidableEq K] {d : List (K × V)} {k : K}
    {f : Option V → V} {p : K × V} (hp : p ∈ updD d k f) :
    p ∈ d ∨ (p.1 = k ∧ p.2 = f (dictLookup d k)) := by
  induction d with
  | nil =>
    simp [updD] at hp
    right
    simp [hp, dictLookup]
  | cons hd tl ih =>
    obtain ⟨k0, v0⟩ := hd
    by_cases hk : k = k0
    · subst hk
      simp [updD] at hp
      rcases hp with h | h
      · right; simp [h, dictLookup]
      · left; simp [h]
    · simp [updD, hk] at hp
      rcases hp with h | h
      · left; simp [h]
      · rcases ih h with h' | h'
        · left; simp [h']
        · right
          have hkk : ¬ k = k0 := hk
          refine ⟨h'.1, ?_⟩
          rw [h'.2]
          simp [dictLookup, hkk]

/-! ### Generic fold helpers -/

theorem foldl_preserve {α β : Type} {f : β → α → β} {P : β → Prop}
    (hstep : ∀ b a, P b → P (f b a)) :
    ∀ (l : List α) (b : β), P b → P (l.foldl f b) := by
  intro l
  induction l with
  | nil => intro b hb; simpa using hb
  | cons x xs ih =>
    intro b hb
    simpa using ih (f b x) (hstep b x hb)

theorem foldl_establish {α β : Type} {f : β → α → β} {P : β → Prop}
    (hstep : ∀ b a, P b → P (f b a)) {x : α} (hx : ∀ b, P (f b x)) :
    ∀ (l : List α) (b : β), x ∈ l → P (l.foldl f b) := by
  intro l
  induction l with
  | nil => intro b hb; simp at hb
  | cons y ys ih =>
    intro b hb
    rcases List.mem_cons.mp hb with h | h
    · subst h
      simpa using foldl_preserve hstep ys (f b x) (hx b)
    · simpa using ih (f b y) h

/-! ### Edge membership through `graphAppend` -/

theorem hasEdge_iff {g : List (String × List Conn)} {a : String} {c : Conn} :
    HasEdge g a c ↔ ∃ l, dictLookup g a = some l ∧ c ∈ l := by
  unfold HasEdge hasEdgeB
  cases h : dictLookup g a with
  | none => simp
  | some l => simp

theorem hasEdge_graphAppend {g : List (String × List Conn)} {s : String} {c : Conn}
    {a : String} {c' : Conn} :
    HasEdge (graphAppend g s c) a c' ↔ HasEdge g a c' ∨ (a = s ∧ c' = c) := by
  rw [hasEdge_iff, hasEdge_iff]
  unfold graphAppend
  rw [dictLookup_updD]
  by_cases h : a = s
  · subst h
    cases hg : dictLookup g a with
    | none => simp
    | some l => simp
  · simp [h]

theorem isKey_graphAppend {g : List (String × List Conn)} {s : String} {c : Conn}
    (k : String) :
    isKey (graphAppend g s c) k = (isKey g k || k == s) := by
  unfold isKey graphAppend
  rw [dictLookup_updD]
  by_cases h : k = s
  · subst h
    cases hg : dictLookup g k <;> simp
  · simp [h]

theorem isKey_graphAppend_key {g : List (String × List Conn)} {s : String} {c : Conn}
    (hs : isKey g s = true) (k : String) :
    isKey (graphAppend g s c) k = isKey g k := by
  rw [isKey_graphAppend]
  by_cases h : k = s
  · subst h; simp [hs]
  · simp [h]

/-! ### Railway-phase edge characterization -/

theorem process_railway_order_hasEdge (rw : String) :
    ∀ (entries : List (Option String)) (g : List (String × List Conn))
      (a : String) (c : Conn),
      HasEdge (process_railway_order rw entries g) a c ↔
        HasEdge g a c ∨ ∃ x y, (x, y) ∈ adjPairs entries ∧
          ((a = x ∧ c = railConn rw y) ∨ (a = y ∧ c = railConn rw x)) := by
  intro entries
  induction entries with
  | nil => intro g a c; simp [process_railway_order, adjPairs]
  | cons cur rest ih =>
    intro g a c
    cases rest with
    | nil => simp [process_railway_order, adjPairs]
    | cons next rest' =>
      cases hc : truthy cur with
      | none =>
        have h1 : process_railway_order rw (cur :: next :: rest') g
            = process_railway_order rw (next :: rest') g := by
          simp [process_railway_order, hc]
        have h2 : adjPairs (cur :: next :: rest') = adjPairs (next :: rest') := by
          simp [adjPairs, hc]
        rw [h1, h2, ih]
      | some x =>
        cases hn : truthy next with
        | none =>
          have h1 : process_railway_order rw (cur :: next :: rest') g
              = process_railway_order rw (next :: rest') g := by
            simp [process_railway_order, hc, hn]
          have h2 : adjPairs (cur :: next :: rest') = adjPairs (next :: rest') := by
            simp [adjPairs, hc, hn]
          rw [h1, h2, ih]
        | some y =>
          have h1 : process_railway_order rw (cur :: next :: rest') g
              = process_railway_order rw (next :: rest')
                  (graphAppend (graphAppend g x (railConn rw y)) y (railConn rw x)) := by
            simp [process_railway_order, hc, hn, railConn,
              DEFAULT_AVG_TIME_PER_STOP]
          have h2 : adjPairs (cur :: next :: rest') = (x, y) :: adjPairs (next :: rest') := by
            simp [adjPairs, hc, hn]
          rw [h1, h2, ih]
          simp only [hasEdge_graphAppend, List.mem_cons, Prod.mk.injEq]
          constructor
          · rintro (((h | h) | h) | ⟨x', y', hm, h⟩)
            · exact Or.inl h
            · exact Or.inr ⟨x, y, Or.inl ⟨rfl, rfl⟩, Or.inl h⟩
            · exact Or.inr ⟨x, y, Or.inl ⟨rfl, rfl⟩, Or.inr h⟩
            · exact Or.inr ⟨x', y', Or.inr hm, h⟩
          · rintro (h | ⟨x', y', (hm | hm), h⟩)
            · exact Or.inl (Or.inl (Or.inl h))
            · rcases h with h | h
              · exact Or.inl (Or.inl (Or.inr ⟨h.1.trans hm.1, h.2.trans (by rw [hm.2])⟩))
              · exact Or.inl (Or.inr ⟨h.1.trans hm.2, h.2.trans (by rw [hm.1])⟩)
            · exact Or.inr ⟨x', y', hm, h⟩

theorem loadRailway_hasEdge (O : Optimizer) (r : RailwayRow) (a : String) (c : Conn) :
    HasEdge (loadRailway O r).network_graph a c ↔
      HasEdge O.network_graph a c ∨ ∃ rid entries, r.same_as = some rid ∧
        r.station_order = some (.parsed entries) ∧ ∃ x y, (x, y) ∈ adjPairs entries ∧
          ((a = x ∧ c = railConn rid y) ∨ (a = y ∧ c = railConn rid x)) := by
  cases hs : r.same_as with
  | none => simp [loadRailway, hs]
  | some rid =>
    cases ho : r.station_order with
    | none => simp [loadRailway, hs, ho]
    | some field =>
      cases field with
      | malformed => simp [loadRailway, hs, ho]
      | parsed entries =>
        by_cases he : entries = []
        · subst he
          simp [loadRailway, hs, ho, adjPairs]
        · simp only [loadRailway, hs, ho, he, if_false]
          rw [process_railway_order_hasEdge]
          simp [hs, ho]

theorem railFold_hasEdge :
    ∀ (railways : List RailwayRow) (O : Optimizer) (a : String) (c : Conn),
      HasEdge (railways.foldl loadRailway O).network_graph a c ↔
        HasEdge O.network_graph a c ∨ ∃ r ∈ railways, ∃ rid entries,
          r.same_as = some rid ∧ r.station_order = some (.parsed entries) ∧
          ∃ x y, (x, y) ∈ adjPairs entries ∧
            ((a = x ∧ c = railConn rid y) ∨ (a = y ∧ c = railConn rid x)) := by
  intro railways
  induction railways with
  | nil => intro O a c; simp
  | cons r rs ih =>
    intro O a c
    simp only [List.foldl_cons]
    rw [ih, loadRailway_hasEdge]
    simp only [List.mem_cons]
    constructor
    · rintro ((h | ⟨rid, entries, h⟩) | ⟨r', hr', h⟩)
      · exact Or.inl h
      · exact Or.inr ⟨r, Or.inl rfl, rid, entries, h⟩
      · exact Or.inr ⟨r', Or.inr hr', h⟩
    · rintro (h | ⟨r', (hr' | hr'), h⟩)
      · exact Or.inl (Or.inl h)
      · subst hr'; exact Or.inl (Or.inr h)
      · exact Or.inr ⟨r', hr', h⟩

theorem loadStation_graph (O : Optimizer) (r : StationRow) :
    (loadStation O r).network_graph = O.network_graph := by
  cases hr : r.same_as <;> simp [loadStation, hr]

theorem stationFold_graph (stations : List StationRow) :
    (stations.foldl loadStation emptyOptimizer).network_graph = [] := by
  refine @foldl_preserve _ _ _ (fun O => O.network_graph = []) ?_ stations emptyOptimizer rfl
  intro O r h
  rw [loadStation_graph, h]

theorem hasEdge_nil (a : String) (c : Conn) :
    ¬ HasEdge ([] : List (String × List Conn)) a c := by
  simp [HasEdge, hasEdgeB, dictLookup]

/-! ### Transfer-phase edge characterization -/

theorem isKey_addTransferPair (g : List (String × List Conn)) (x y k : String) :
    isKey (addTransferPair g x y) k = isKey g k := by
  unfold addTransferPair
  cases h1 : isKey g x with
  | true =>
    cases h2 : isKey g y with
    | true =>
      simp only [h1, if_true, isKey_graphAppend_key h1, h2,
        isKey_graphAppend_key (isKey_graphAppend_key h1 y ▸ h2 : _)]
    | false =>
      simp only [h1, if_true, isKey_graphAppend_key h1, h2, Bool.false_eq_true, if_false]
  | false =>
    simp only [h1, Bool.false_eq_true, if_false]
    cases h2 : isKey g y with
    | true => simp only [h2, if_true, isKey_graphAppend_key h2]
    | false => simp only [h2, Bool.false_eq_true, if_false]

theorem hasEdge_addTransferPair (g : List (String × List Conn)) (x y a : String)
    (c : Conn) :
    HasEdge (addTransferPair g x y) a c ↔ HasEdge g a c
      ∨ (isKey g x = true ∧ a = x ∧ c = transferConn y)
      ∨ (isKey g y = true ∧ a = y ∧ c = transferConn x) := by
  unfold addTransferPair
  cases h1 : isKey g x with
  | true =>
    cases h2 : isKey g y with
    | true =>
      simp only [h1, if_true, isKey_graphAppend_key h1, h2, hasEdge_graphAppend,
        transferConn]
      tauto
    | false =>
      simp only [h1, if_true, isKey_graphAppend_key h1, h2, Bool.false_eq_true,
        if_false, hasEdge_graphAppend, transferConn, false_and, or_false, true_and]
  | false =>
    simp only [h1, Bool.false_eq_true, if_false, false_and, false_or]
    cases h2 : isKey g y with
    | true =>
      simp only [h2, if_true, hasEdge_graphAppend, transferConn, true_and]
    | false =>
      simp only [h2, Bool.false_eq_true, if_false, false_and, or_false]

theorem isKey_transferInner (x : String) :
    ∀ (rest : List String) (g : List (String × List Conn)) (k : String),
      isKey (rest.foldl (fun g' b => addTransferPair g' x b) g) k = isKey g k := by
  intro rest
  induction rest with
  | nil => intro g k; rfl
  | cons b bs ih =>
    intro g k
    simp only [List.foldl_cons]
    rw [ih, isKey_addTransferPair]

theorem hasEdge_transferInner (x : String) :
    ∀ (rest : List String) (g : List (String × List Conn)) (a : String) (c : Conn),
      HasEdge (rest.foldl (fun g' b => addTransferPair g' x b) g) a c ↔
        HasEdge g a c ∨ ∃ b ∈ rest,
          (isKey g x = true ∧ a = x ∧ c = transferConn b) ∨
          (isKey g b = true ∧ a = b ∧ c = transferConn x) := by
  intro rest
  induction rest with
  | nil => intro g a c; simp
  | cons b bs ih =>
    intro g a c
    simp only [List.foldl_cons]
    rw [ih]
    simp only [hasEdge_addTransferPair, isKey_addTransferPair, List.mem_cons]
    constructor
    · rintro ((h | h | h) | ⟨b', hb', h⟩)
      · exact Or.inl h
      · exact Or.inr ⟨b, Or.inl rfl, Or.inl h⟩
      · exact Or.inr ⟨b, Or.inl rfl, Or.inr h⟩
      · exact Or.inr ⟨b', Or.inr hb', h⟩
    · rintro (h | ⟨b', (hb' | hb'), h⟩)
      · exact Or.inl (Or.inl h)
      · subst hb'; exact Or.inl (Or.inr h)
      · exact Or.inr ⟨b', hb', h⟩

theorem isKey_transferGroup :
    ∀ (ids : List String) (g : List (String × List Conn)) (k : String),
      isKey (addTransfersForGroup g ids) k = isKey g k := by
  intro ids
  induction ids with
  | nil => intro g k; rfl
  | cons a0 rest ih =>
    intro g k
    unfold addTransfersForGroup
    rw [ih, isKey_transferInner]

theorem hasEdge_transferGroup :
    ∀ (ids : List String) (g : List (String × List Conn)) (a : String) (c : Conn),
      HasEdge (addTransfersForGroup g ids) a c ↔
        HasEdge g a c ∨ ∃ p ∈ pairsOf ids,
          (isKey g p.1 = true ∧ a = p.1 ∧ c = transferConn p.2) ∨
          (isKey g p.2 = true ∧ a = p.2 ∧ c = transferConn p.1) := by
  intro ids
  induction ids with
  | nil => intro g a c; simp [addTransfersForGroup, pairsOf]
  | cons a0 rest ih =>
    intro g a c
    unfold addTransfersForGroup
    rw [ih, hasEdge_transferInner]
    simp only [isKey_transferInner, pairsOf, List.mem_append, List.mem_map]
    constructor
    · rintro ((h | ⟨b, hb, h⟩) | ⟨p, hp, h⟩)
      · exact Or.inl h
      · exact Or.inr ⟨(a0, b), Or.inl ⟨b, hb, rfl⟩, h⟩
      · exact Or.inr ⟨p, Or.inr hp, h⟩
    · rintro (h | ⟨p, (⟨b, hb, hpeq⟩ | hp), h⟩)
      · exact Or.inl (Or.inl h)
      · subst hpeq; exact Or.inl (Or.inr ⟨b, hb, h⟩)
      · exact Or.inr ⟨p, hp, h⟩

theorem isKey_transferFold :
    ∀ (ts : List (Option String × List String)) (g : List (String × List Conn))
      (k : String),
      isKey (ts.foldl
        (fun g' p => if 1 < p.2.length then addTransfersForGroup g' p.2 else g') g) k
        = isKey g k := by
  intro ts
  induction ts with
  | nil => intro g k; rfl
  | cons q qs ih =>
    intro g k
    simp only [List.foldl_cons]
    rw [ih]
    by_cases h : 1 < q.2.length
    · simp only [h, if_true]
      exact isKey_transferGroup q.2 g k
    · simp [h]

theorem hasEdge_transferFold :
    ∀ (ts : List (Option String × List String)) (g : List (String × List Conn))
      (a : String) (c : Conn),
      HasEdge (ts.foldl
        (fun g' p => if 1 < p.2.length then addTransfersForGroup g' p.2 else g') g) a c ↔
        HasEdge g a c ∨ ∃ q ∈ ts, 1 < q.2.length ∧ ∃ p ∈ pairsOf q.2,
          (isKey g p.1 = true ∧ a = p.1 ∧ c = transferConn p.2) ∨
          (isKey g p.2 = true ∧ a = p.2 ∧ c = transferConn p.1) := by
  intro ts
  induction ts with
  | nil => intro g a c; simp
  | cons q qs ih =>
    intro g a c
    simp only [List.foldl_cons]
    by_cases h : 1 < q.2.length
    · simp only [h, if_true]
      rw [ih, hasEdge_transferGroup]
      simp only [isKey_transferGroup, List.mem_cons]
      constructor
      · rintro ((hg | ⟨p, hp, hc⟩) | ⟨q', hq', hc⟩)
        · exact Or.inl hg
        · exact Or.inr ⟨q, Or.inl rfl, h, p, hp, hc⟩
        · exact Or.inr ⟨q', Or.inr hq', hc⟩
      · rintro (hg | ⟨q', (hq' | hq'), hlen, p, hp, hc⟩)
        · exact Or.inl (Or.inl hg)
        · subst hq'; exact Or.inl (Or.inr ⟨p, hp, hc⟩)
        · exact Or.inr ⟨q', hq', hlen, p, hp, hc⟩
    · simp only [h, if_false]
      rw [ih]
      simp only [List.mem_cons]
      constructor
      · rintro (hg | ⟨q', hq', hc⟩)
        · exact Or.inl hg
        · exact Or.inr ⟨q', Or.inr hq', hc⟩
      · rintro (hg | ⟨q', (hq' | hq'), hlen, hc⟩)
        · exact Or.inl hg
        · subst hq'; exact absurd hlen h
        · exact Or.inr ⟨q', hq', hlen, hc⟩

theorem hasEdge_add_transfer_connections (O : Optimizer) (a : String) (c : Conn) :
    HasEdge (add_transfer_connections O).network_graph a c ↔
      HasEdge O.network_graph a c ∨ ∃ q ∈ O.transfer_stations, 1 < q.2.length ∧
        ∃ p ∈ pairsOf q.2,
          (isKey O.network_graph p.1 = true ∧ a = p.1 ∧ c = transferConn p.2) ∨
          (isKey O.network_graph p.2 = true ∧ a = p.2 ∧ c = transferConn p.1) :=
  hasEdge_transferFold O.transfer_stations O.network_graph a c

theorem isKey_add_transfer_connections (O : Optimizer) (k : String) :
    isKey (add_transfer_connections O).network_graph k = isKey O.network_graph k :=
  isKey_transferFold O.transfer_stations O.network_graph k

/-! ### `pairsOf` facts -/

theorem pairsOf_mem {ids : List String} {p : String × String}
    (hnd : ids.Nodup) (h : p ∈ pairsOf ids) :
    p.1 ∈ ids ∧ p.2 ∈ ids ∧ p.1 ≠ p.2 := by
  induction ids with
  | nil => simp [pairsOf] at h
  | cons a rest ih =>
    simp only [pairsOf, List.mem_append, List.mem_map] at h
    rcases List.nodup_cons.mp hnd with ⟨ha, hrest⟩
    rcases h with ⟨b, hb, hpeq⟩ | h
    · subst hpeq
      refine ⟨List.mem_cons_self a rest, List.mem_cons_of_mem a hb, ?_⟩
      intro hab
      simp only at hab
      exact ha (hab ▸ hb)
    · rcases ih hrest h with ⟨h1, h2, h3⟩
      exact ⟨List.mem_cons_of_mem a h1, List.mem_cons_of_mem a h2, h3⟩

theorem pairsOf_cover {ids : List String} {x y : String}
    (hx : x ∈ ids) (hy : y ∈ ids) (hne : x ≠ y) :
    (x, y) ∈ pairsOf ids ∨ (y, x) ∈ pairsOf ids := by
  induction ids with
  | nil => simp at hx
  | cons a rest ih =>
    rcases List.mem_cons.mp hx with hxa | hx'
    · subst hxa
      have hy' : y ∈ rest := by
        rcases List.mem_cons.mp hy with h | h
        · exact absurd h.symm hne
        · exact h
      left
      simp only [pairsOf, List.mem_append, List.mem_map]
      exact Or.inl ⟨y, hy', rfl⟩
    · rcases List.mem_cons.mp hy with hya | hy'
      · subst hya
        right
        simp only [pairsOf, List.mem_append, List.mem_map]
        exact Or.inl ⟨x, hx', rfl⟩
      · rcases ih hx' hy' with h | h
        · left
          simp only [pairsOf, List.mem_append]
          exact Or.inr h
        · right
          simp only [pairsOf, List.mem_append]
          exact Or.inr h

theorem two_mem_length_lt {ids : List String} {x y : String}
    (hx : x ∈ ids) (hy : y ∈ ids) (hne : x ≠ y) : 1 < ids.length := by
  cases ids with
  | nil => simp at hx
  | cons a rest =>
    cases rest with
    | nil =>
      simp at hx hy
      exact absurd (hx.trans hy.symm) hne
    | cons b rest' => simp [Nat.lt_of_sub_eq_succ]

/-! ### Station-phase content lemmas -/

theorem dictLookup_cons_self {K V : Type} [DecidableEq K] (k : K) (v : V)
    (tl : List (K × V)) : dictLookup ((k, v) :: tl) k = some v := by
  simp [dictLookup]

theorem dictLookup_cons_ne {K V : Type} [DecidableEq K] {k k0 : K} (h : ¬ k = k0)
    (v0 : V) (tl : List (K × V)) :
    dictLookup ((k0, v0) :: tl) k = dictLookup tl k := by
  simp [dictLookup, h]

theorem updD_cons_self {K V : Type} [DecidableEq K] (k : K) (v : V)
    (tl : List (K × V)) (f : Option V → V) :
    updD ((k, v) :: tl) k f = (k, f (some v)) :: tl := by
  simp [updD]

theorem updD_cons_ne {K V : Type} [DecidableEq K] {k k0 : K} (h : ¬ k = k0)
    (v0 : V) (tl : List (K × V)) (f : Option V → V) :
    updD ((k0, v0) :: tl) k f = (k0, v0) :: updD tl k f := by
  simp [updD, h]

theorem dictLookup_mem {K V : Type} [DecidableEq K] :
    ∀ {d : List (K × V)} {k : K} {v : V}, dictLookup d k = some v → (k, v) ∈ d := by
  intro d
  induction d with
  | nil => intro k v h; simp [dictLookup] at h
  | cons hd tl ih =>
    intro k v h
    obtain ⟨k0, v0⟩ := hd
    by_cases hk : k = k0
    · subst hk
      rw [dictLookup_cons_self] at h
      injection h with h
      subst h
      exact List.mem_cons_self _ _
    · rw [dictLookup_cons_ne hk] at h
      exact List.mem_cons_of_mem _ (ih h)

theorem keys_updD_subset {K V : Type} [DecidableEq K] {d : List (K × V)} {k : K}
    {f : Option V → V} {x : K} (h : x ∈ (updD d k f).map Prod.fst) :
    x = k ∨ x ∈ d.map Prod.fst := by
  induction d with
  | nil => simp [updD] at h; exact Or.inl h
  | cons hd tl ih =>
    obtain ⟨k0, v0⟩ := hd
    by_cases hk : k = k0
    · subst hk
      rw [updD_cons_self] at h
      simp only [List.map_cons, List.mem_cons] at h
      rcases h with h | h
      · exact Or.inl h
      · exact Or.inr (List.mem_cons_of_mem _ h)
    · rw [updD_cons_ne hk] at h
      simp only [List.map_cons, List.mem_cons] at h
      rcases h with h | h
      · exact Or.inr (by simp [h])
      · rcases ih h with h' | h'
        · exact Or.inl h'
        · exact Or.inr (List.mem_cons_of_mem _ h')

theorem updD_keys_nodup {K V : Type} [DecidableEq K] {d : List (K × V)} {k : K}
    {f : Option V → V} (hnd : (d.map Prod.fst).Nodup) :
    ((updD d k f).map Prod.fst).Nodup := by
  induction d with
  | nil => simp [updD]
  | cons hd tl ih =>
    obtain ⟨k0, v0⟩ := hd
    simp only [List.map_cons, List.nodup_cons] at hnd
    by_cases hk : k = k0
    · subst hk
      rw [updD_cons_self]
      simpa [List.nodup_cons] using hnd
    · rw [updD_cons_ne hk]
      simp only [List.map_cons, List.nodup_cons]
      refine ⟨?_, ih hnd.2⟩
      intro hmem
      rcases keys_updD_subset hmem with h | h
      · exact hk h.symm
      · exact hnd.1 h

theorem mem_lookup_of_nodupkeys {K V : Type} [DecidableEq K] :
    ∀ {d : List (K × V)}, (d.map Prod.fst).Nodup →
      ∀ {k : K} {v : V}, (k, v) ∈ d → dictLookup d k = some v := by
  intro d
  induction d with
  | nil => intro _ k v h; simp at h
  | cons hd tl ih =>
    intro hnd k v h
    obtain ⟨k0, v0⟩ := hd
    simp only [List.map_cons, List.nodup_cons] at hnd
    rcases List.mem_cons.mp h with heq | htl
    · rw [Prod.mk.injEq] at heq
      obtain ⟨h1, h2⟩ := heq
      subst h1
      subst h2
      exact dictLookup_cons_self k v tl
    · have hk : ¬ k = k0 := by
        intro hkk
        subst hkk
        exact hnd.1 (List.mem_map.mpr ⟨(k, v), htl, rfl⟩)
      rw [dictLookup_cons_ne hk]
      exact ih hnd.2 htl

theorem addToSet_lookup_self (ts : List (Option String × List String))
    (t : Option String) (id : String) :
    ∃ ids, dictLookup (addToSet ts t id) t = some ids ∧ id ∈ ids := by
  unfold addToSet
  rw [dictLookup_updD]
  simp only [if_pos rfl]
  cases h : dictLookup ts t with
  | none => exact ⟨[id], rfl, by simp⟩
  | some ids0 =>
    by_cases hmem : id ∈ ids0
    · exact ⟨ids0, by simp [hmem], hmem⟩
    · exact ⟨ids0 ++ [id], by simp [hmem], by simp⟩

theorem addToSet_lookup_ne (ts : List (Option String × List String))
    (t0 : Option String) (id : String) {t : Option String} (h : t ≠ t0) :
    dictLookup (addToSet ts t0 id) t = dictLookup ts t := by
  unfold addToSet
  rw [dictLookup_updD]
  simp [h]

theorem addToSet_mono {ts : List (Option String × List String)}
    (t0 : Option String) (id : String) {t : Option String} {ids : List String}
    {x : String} (hl : dictLookup ts t = some ids) (hx : x ∈ ids) :
    ∃ ids', dictLookup (addToSet ts t0 id) t = some ids' ∧ x ∈ ids' := by
  by_cases h : t = t0
  · subst h
    unfold addToSet
    rw [dictLookup_updD]
    simp only [if_pos rfl, hl]
    by_cases hmem : id ∈ ids
    · exact ⟨ids, by simp [hmem], hx⟩
    · exact ⟨ids ++ [id], by simp [hmem], by simp [hx]⟩
  · exact ⟨ids, by rw [addToSet_lookup_ne ts t0 id h]; exact hl, hx⟩

theorem addToSet_sound {ts : List (Option String × List String)}
    {t0 : Option String} {id : String} {t : Option String} {ids : List String}
    (hl : dictLookup (addToSet ts t0 id) t = some ids) {x : String} (hx : x ∈ ids) :
    (∃ ids0, dictLookup ts t = some ids0 ∧ x ∈ ids0) ∨ (x = id ∧ t = t0) := by
  by_cases h : t = t0
  · subst h
    unfold addToSet at hl
    rw [dictLookup_updD, if_pos rfl] at hl
    cases h0 : dictLookup ts t with
    | none =>
      rw [h0] at hl
      simp only [Option.some.injEq] at hl
      subst hl
      simp only [List.mem_singleton] at hx
      exact Or.inr ⟨hx, rfl⟩
    | some ids0 =>
      rw [h0] at hl
      simp only [Option.some.injEq] at hl
      by_cases hmem : id ∈ ids0
      · rw [if_pos hmem] at hl
        subst hl
        exact Or.inl ⟨ids0, rfl, hx⟩
      · rw [if_neg hmem] at hl
        subst hl
        rcases List.mem_append.mp hx with hp | hp
        · exact Or.inl ⟨ids0, rfl, hp⟩
        · simp only [List.mem_singleton] at hp
          exact Or.inr ⟨hp, rfl⟩
  · rw [addToSet_lookup_ne ts t0 id h] at hl
    exact Or.inl ⟨ids, hl, hx⟩

theorem stationFold_info_in_group :
    ∀ (stations : List StationRow) (O : Optimizer),
      (∀ a ia, dictLookup O.station_info a = some ia →
        ∃ ids, dictLookup O.transfer_stations ia.title = some ids ∧ a ∈ ids) →
      ∀ a ia, dictLookup (stations.foldl loadStation O).station_info a = some ia →
        ∃ ids, dictLookup (stations.foldl loadStation O).transfer_stations ia.title
            = some ids ∧ a ∈ ids := by
  intro stations
  induction stations with
  | nil => intro O h; simpa using h
  | cons r rs ih =>
    intro O h
    simp only [List.foldl_cons]
    apply ih
    intro a ia hlook
    cases hs : r.same_as with
    | none =>
      simp only [loadStation, hs] at hlook ⊢
      exact h a ia hlook
    | some id =>
      simp only [loadStation, hs] at hlook ⊢
      rw [dictLookup_updD] at hlook
      by_cases ha : a = id
      · subst ha
        rw [if_pos rfl] at hlook
        injection hlook with hlook
        subst hlook
        simpa using addToSet_lookup_self O.transfer_stations r.title a
      · rw [if_neg ha] at hlook
        rcases h a ia hlook with ⟨ids, hts, hmem⟩
        exact addToSet_mono r.title id hts hmem

theorem stationFold_groups_sound :
    ∀ (stations : List StationRow) (O : Optimizer) (C : String → Option String → Prop),
      (∀ t ids, dictLookup O.transfer_stations t = some ids → ∀ x ∈ ids, C x t) →
      (∀ r ∈ stations, ∀ id, r.same_as = some id → C id r.title) →
      ∀ t ids, dictLookup (stations.foldl loadStation O).transfer_stations t = some ids →
        ∀ x ∈ ids, C x t := by
  intro stations
  induction stations with
  | nil => intro O C h _; simpa using h
  | cons r rs ih =>
    intro O C h hrows
    simp only [List.foldl_cons]
    apply ih
    · intro t ids hl x hx
      cases hs : r.same_as with
      | none =>
        simp only [loadStation, hs] at hl
        exact h t ids hl x hx
      | some id =>
        simp only [loadStation, hs] at hl
        rcases addToSet_sound hl hx with ⟨ids0, hl0, hx0⟩ | ⟨hxid, hteq⟩
        · exact h t ids0 hl0 x hx0
        · subst hxid; subst hteq
          exact hrows r (List.mem_cons_self r rs) x hs
    · intro r' hr' id hid
      exact hrows r' (List.mem_cons_of_mem r hr') id hid

theorem stationFold_info_rows :
    ∀ (stations : List StationRow) (O : Optimizer) (C : String → Option String → Prop),
      (∀ a ia, dictLookup O.station_info a = some ia → C a ia.title) →
      (∀ r ∈ stations, ∀ id, r.same_as = some id → C id r.title) →
      ∀ a ia, dictLookup (stations.foldl loadStation O).station_info a = some ia →
        C a ia.title := by
  intro stations
  induction stations with
  | nil => intro O C h _; simpa using h
  | cons r rs ih =>
    intro O C h hrows
    simp only [List.foldl_cons]
    apply ih
    · intro a ia hlook
      cases hs : r.same_as with
      | none =>
        simp only [loadStation, hs] at hlook
        exact h a ia hlook
      | some id =>
        simp only [loadStation, hs] at hlook
        rw [dictLookup_updD] at hlook
        by_cases ha : a = id
        · subst ha
          rw [if_pos rfl] at hlook
          injection hlook with hlook
          subst hlook
          exact hrows r (List.mem_cons_self r rs) a hs
        · rw [if_neg ha] at hlook
          exact h a ia hlook
    · intro r' hr' id hid
      exact hrows r' (List.mem_cons_of_mem r hr') id hid

theorem stationFold_groups_nodup :
    ∀ (stations : List StationRow) (O : Optimizer),
      (∀ t ids, dictLookup O.transfer_stations t = some ids → ids.Nodup) →
      ∀ t ids, dictLookup (stations.foldl loadStation O).transfer_stations t = some ids →
        ids.Nodup := by
  intro stations
  induction stations with
  | nil => intro O h; simpa using h
  | cons r rs ih =>
    intro O h
    simp only [List.foldl_cons]
    apply ih
    intro t ids hl
    cases hs : r.same_as with
    | none =>
      simp only [loadStation, hs] at hl
      exact h t ids hl
    | some id =>
      simp only [loadStation, hs] at hl
      unfold addToSet at hl
      rw [dictLookup_updD] at hl
      by_cases ht : t = r.title
      · subst ht
        rw [if_pos rfl] at hl
        cases h0 : dictLookup O.transfer_stations r.title with
        | none =>
          rw [h0] at hl
          simp only [Option.some.injEq] at hl
          subst hl
          simp
        | some ids0 =>
          rw [h0] at hl
          simp only [Option.some.injEq] at hl
          have hnd0 : ids0.Nodup := h _ _ h0
          by_cases hmem : id ∈ ids0
          · rw [if_pos hmem] at hl
            subst hl
            exact hnd0
          · rw [if_neg hmem] at hl
            subst hl
            simp [List.nodup_append, hnd0, hmem]
      · rw [if_neg ht] at hl
        exact h t ids hl

theorem stationFold_ts_nodupkeys :
    ∀ (stations : List StationRow) (O : Optimizer),
      ((O.transfer_stations.map Prod.fst).Nodup) →
      (((stations.foldl loadStation O).transfer_stations.map Prod.fst)).Nodup := by
  intro stations
  induction stations with
  | nil => intro O h; simpa using h
  | cons r rs ih =>
    intro O h
    simp only [List.foldl_cons]
    apply ih
    cases hs : r.same_as with
    | none => simpa [loadStation, hs] using h
    | some id =>
      simp only [loadStation, hs]
      exact updD_keys_nodup h

/-! ### Component projections through the phases -/

theorem loadRailway_station_info (O : Optimizer) (r : RailwayRow) :
    (loadRailway O r).station_info = O.station_info := by
  cases hs : r.same_as with
  | none => simp [loadRailway, hs]
  | some rid =>
    cases ho : r.station_order with
    | none => simp [loadRailway, hs, ho]
    | some field =>
      cases field with
      | malformed => simp [loadRailway, hs, ho]
      | parsed entries =>
        by_cases he : entries = [] <;> simp [loadRailway, hs, ho, he]

theorem loadRailway_transfer_stations (O : Optimizer) (r : RailwayRow) :
    (loadRailway O r).transfer_stations = O.transfer_stations := by
  cases hs : r.same_as with
  | none => simp [loadRailway, hs]
  | some rid =>
    cases ho : r.station_order with
    | none => simp [loadRailway, hs, ho]
    | some field =>
      cases field with
      | malformed => simp [loadRailway, hs, ho]
      | parsed entries =>
        by_cases he : entries = [] <;> simp [loadRailway, hs, ho, he]

theorem railFold_station_info (railways : List RailwayRow) (O : Optimizer) :
    (railways.foldl loadRailway O).station_info = O.station_info := by
  refine @foldl_preserve _ _ _ (fun O' => O'.station_info = O.station_info) ?_ railways O rfl
  intro O' r h
  rw [loadRailway_station_info, h]

theorem railFold_transfer_stations (railways : List RailwayRow) (O : Optimizer) :
    (railways.foldl loadRailway O).transfer_stations = O.transfer_stations := by
  refine @foldl_preserve _ _ _ (fun O' => O'.transfer_stations = O.transfer_stations) ?_
    railways O rfl
  intro O' r h
  rw [loadRailway_transfer_stations, h]

theorem atc_station_info (O : Optimizer) :
    (add_transfer_connections O).station_info = O.station_info := rfl

theorem atc_transfer_stations (O : Optimizer) :
    (add_transfer_connections O).transfer_stations = O.transfer_stations := rfl

theorem build_network_station_info (stations : List StationRow)
    (railways : List RailwayRow) :
    (build_network stations railways).station_info
      = (stations.foldl loadStation emptyOptimizer).station_info := by
  unfold build_network
  rw [atc_station_info, railFold_station_info]

theorem build_network_transfer_stations (stations : List StationRow)
    (railways : List RailwayRow) :
    (build_network stations railways).transfer_stations
      = (stations.foldl loadStation emptyOptimizer).transfer_stations := by
  unfold build_network
  rw [atc_transfer_stations, railFold_transfer_stations]

/-! ### Build-level packaging of the construction lemmas -/

theorem transferConn_eq (z : String) : transferConn z = ⟨z, 5, "Transfer", 0⟩ := by
  unfold transferConn DEFAULT_TRANSFER_TIME
  norm_num

theorem railConn_eq (rw z : String) : railConn rw z = ⟨z, 5/2, rw, 1⟩ := by
  unfold railConn DEFAULT_AVG_TIME_PER_STOP
  norm_num

theorem build_info_in_group {stations : List StationRow} {railways : List RailwayRow}
    {a : String} {ia : StationInfoEntry}
    (ha : dictLookup (build_network stations railways).station_info a = some ia) :
    ∃ ids, dictLookup (build_network stations railways).transfer_stations ia.title
        = some ids ∧ a ∈ ids := by
  rw [build_network_station_info] at ha
  rw [build_network_transfer_stations]
  refine stationFold_info_in_group stations emptyOptimizer ?_ a ia ha
  intro a' ia' h
  simp [emptyOptimizer, dictLookup] at h

theorem build_groups_sound {stations : List StationRow} {railways : List RailwayRow}
    {t : Option String} {ids : List String}
    (hl : dictLookup (build_network stations railways).transfer_stations t = some ids) :
    ∀ x ∈ ids, ∃ r ∈ stations, r.same_as = some x ∧ r.title = t := by
  rw [build_network_transfer_stations] at hl
  refine stationFold_groups_sound stations emptyOptimizer
    (fun x t' => ∃ r ∈ stations, r.same_as = some x ∧ r.title = t') ?_ ?_ t ids hl
  · intro t' ids' h
    simp [emptyOptimizer, dictLookup] at h
  · intro r hr id hid
    exact ⟨r, hr, hid, rfl⟩

theorem build_info_rows {stations : List StationRow} {railways : List RailwayRow}
    {a : String} {ia : StationInfoEntry}
    (ha : dictLookup (build_network stations railways).station_info a = some ia) :
    ∃ r ∈ stations, r.same_as = some a ∧ r.title = ia.title := by
  rw [build_network_station_info] at ha
  refine stationFold_info_rows stations emptyOptimizer
    (fun x t' => ∃ r ∈ stations, r.same_as = some x ∧ r.title = t') ?_ ?_ a ia ha
  · intro a' ia' h
    simp [emptyOptimizer, dictLookup] at h
  · intro r hr id hid
    exact ⟨r, hr, hid, rfl⟩

theorem build_groups_nodup {stations : List StationRow} {railways : List RailwayRow}
    {t : Option String} {ids : List String}
    (hl : dictLookup (build_network stations railways).transfer_stations t = some ids) :
    ids.Nodup := by
  rw [build_network_transfer_stations] at hl
  refine stationFold_groups_nodup stations emptyOptimizer ?_ t ids hl
  intro t' ids' h
  simp [emptyOptimizer, dictLookup] at h

theorem build_ts_nodupkeys (stations : List StationRow) (railways : List RailwayRow) :
    (((build_network stations railways).transfer_stations).map Prod.fst).Nodup := by
  rw [build_network_transfer_stations]
  refine stationFold_ts_nodupkeys stations emptyOptimizer ?_
  simp [emptyOptimizer]

theorem build_hasEdge (stations : List StationRow) (railways : List RailwayRow)
    (a : String) (c : Conn) :
    HasEdge (build_network stations railways).network_graph a c ↔
      (∃ r ∈ railways, ∃ rid entries, r.same_as = some rid ∧
          r.station_order = some (.parsed entries) ∧ ∃ x y, (x, y) ∈ adjPairs entries ∧
          ((a = x ∧ c = railConn rid y) ∨ (a = y ∧ c = railConn rid x))) ∨
      (∃ q ∈ (build_network stations railways).transfer_stations, 1 < q.2.length ∧
        ∃ p ∈ pairsOf q.2,
          (isKey (build_network stations railways).network_graph p.1 = true ∧
            a = p.1 ∧ c = transferConn p.2) ∨
          (isKey (build_network stations railways).network_graph p.2 = true ∧
            a = p.2 ∧ c = transferConn p.1)) := by
  have hkey : ∀ k, isKey (build_network stations railways).network_graph k
      = isKey ((railways.foldl loadRailway
          (stations.foldl loadStation emptyOptimizer))).network_graph k :=
    fun k => isKey_add_transfer_connections _ k
  have hts : (build_network stations railways).transfer_stations
      = ((railways.foldl loadRailway
          (stations.foldl loadStation emptyOptimizer))).transfer_stations := by
    rw [build_network_transfer_stations, railFold_transfer_stations]
  simp only [hkey, hts]
  show HasEdge (add_transfer_connections
      (railways.foldl loadRailway (stations.foldl loadStation emptyOptimizer))).network_graph
      a c ↔ _
  rw [hasEdge_add_transfer_connections]
  rw [railFold_hasEdge]
  rw [show ((stations.foldl loadStation emptyOptimizer)).network_graph = [] from
    stationFold_graph stations]
  simp only [hasEdge_nil, false_or]

/-! ## Claim theorems -/

/-- C1 counterexample: in the built network `exC1`, stations `S1` and `S2` are
distinct loaded stations sharing display title `X`, yet no Transfer edge
`S2 → S1` exists (`S2` lies on no railway, so the guarded append skips it and
the "bidirectional" Transfer edge is absent); and stations `S1` (title `X`)
and `S3` (title `Y`) have differing display titles, yet a bidirectional
Transfer edge with travel time 5.0 and stop count 0 exists between them
(`S3` was first recorded under title `X`).  This refutes both halves of the
claim as stated. -/
theorem transfer_synthesis_counterexample :
    ((dictLookup exC1.station_info "S1").map StationInfoEntry.title = some (some "X")
      ∧ (dictLookup exC1.station_info "S2").map StationInfoEntry.title = some (some "X")
      ∧ ¬ HasEdge exC1.network_graph "S2" ⟨"S1", 5, "Transfer", 0⟩)
    ∧ ((dictLookup exC1.station_info "S3").map StationInfoEntry.title = some (some "Y")
      ∧ HasEdge exC1.network_graph "S1" ⟨"S3", 5, "Transfer", 0⟩
      ∧ HasEdge exC1.network_graph "S3" ⟨"S1", 5, "Transfer", 0⟩) := by
  refine ⟨⟨by decide, by decide, by decide⟩, by decide, ?_, ?_⟩
  · rw [← transferConn_eq]
    rw [show exC1 = build_network exC1stations exC1railways from rfl, build_hasEdge]
    right
    refine ⟨(some "X", ["S1", "S2", "S3"]), by decide, by decide,
      ("S1", "S3"), by decide, ?_⟩
    exact Or.inl ⟨by decide, rfl, rfl⟩
  · rw [← transferConn_eq]
    rw [show exC1 = build_network exC1stations exC1railways from rfl, build_hasEdge]
    right
    refine ⟨(some "X", ["S1", "S2", "S3"]), by decide, by decide,
      ("S1", "S3"), by decide, ?_⟩
    exact Or.inr ⟨by decide, rfl, rfl⟩

/-- C1 (amended): in a built network, for every pair of distinct loaded
stations that share the same display title and are both vertices of the
network graph (occur in some processed railway's station order), the graph
contains a bidirectional "Transfer" edge between them with travel time 5.0
and stop count 0; and, provided each loaded station id carries a single
display title across the station rows, for every pair of stations whose
display titles differ no such Transfer edge exists between them. -/
theorem transfer_synthesis_amended (stations : List StationRow)
    (railways : List RailwayRow) (a b : String) (ia ib : StationInfoEntry)
    (ha : dictLookup (build_network stations railways).station_info a = some ia)
    (hb : dictLookup (build_network stations railways).station_info b = some ib) :
    (ia.title = ib.title → a ≠ b →
      isKey (build_network stations railways).network_graph a = true →
      isKey (build_network stations railways).network_graph b = true →
      HasEdge (build_network stations railways).network_graph a ⟨b, 5, "Transfer", 0⟩ ∧
      HasEdge (build_network stations railways).network_graph b ⟨a, 5, "Transfer", 0⟩) ∧
    (TitleConsistent stations → ia.title ≠ ib.title →
      ¬ HasEdge (build_network stations railways).network_graph a ⟨b, 5, "Transfer", 0⟩) := by
  constructor
  · intro ht hne hka hkb
    obtain ⟨ids, hgl, hma⟩ := build_info_in_group ha
    obtain ⟨idsB, hglB, hmb⟩ := build_info_in_group hb
    rw [ht] at hgl
    rw [hgl] at hglB
    injection hglB with hglB
    subst hglB
    have hq : (ib.title, ids) ∈ (build_network stations railways).transfer_stations :=
      dictLookup_mem hgl
    have hlen := two_mem_length_lt hma hmb hne
    rcases pairsOf_cover hma hmb hne with hp | hp
    · constructor
      · rw [← transferConn_eq]
        exact (build_hasEdge stations railways a (transferConn b)).mpr
          (Or.inr ⟨(ib.title, ids), hq, hlen, (a, b), hp, Or.inl ⟨hka, rfl, rfl⟩⟩)
      · rw [← transferConn_eq]
        exact (build_hasEdge stations railways b (transferConn a)).mpr
          (Or.inr ⟨(ib.title, ids), hq, hlen, (a, b), hp, Or.inr ⟨hkb, rfl, rfl⟩⟩)
    · constructor
      · rw [← transferConn_eq]
        exact (build_hasEdge stations railways a (transferConn b)).mpr
          (Or.inr ⟨(ib.title, ids), hq, hlen, (b, a), hp, Or.inr ⟨hka, rfl, rfl⟩⟩)
      · rw [← transferConn_eq]
        exact (build_hasEdge stations railways b (transferConn a)).mpr
          (Or.inr ⟨(ib.title, ids), hq, hlen, (b, a), hp, Or.inl ⟨hkb, rfl, rfl⟩⟩)
  · intro huniq hneq hedge
    rw [build_hasEdge] at hedge
    rcases hedge with ⟨r, hr, rid, entries, hsame, horder, x, y, hxy, hc⟩ |
      ⟨q, hq, hlen, p, hp, hc⟩
    · rcases hc with ⟨_, hc⟩ | ⟨_, hc⟩ <;> simp [railConn_eq] at hc
    · obtain ⟨t0, ids0⟩ := q
      have hql : dictLookup (build_network stations railways).transfer_stations t0
          = some ids0 :=
        mem_lookup_of_nodupkeys (build_ts_nodupkeys stations railways) hq
      have hnd := build_groups_nodup hql
      obtain ⟨hp1, hp2, hpne⟩ := pairsOf_mem hnd hp
      have hsound := build_groups_sound hql
      obtain ⟨ra', hra', hraid', hratitle'⟩ := build_info_rows ha
      obtain ⟨rb', hrb', hrbid', hrbtitle'⟩ := build_info_rows hb
      rcases hc with ⟨_, haP, hcP⟩ | ⟨_, haP, hcP⟩
      · rw [transferConn_eq] at hcP
        have hb2 : b = p.2 := by simpa using congrArg Conn.to_station hcP
        obtain ⟨ra, hra, hraid, hratitle⟩ := hsound p.1 hp1
        obtain ⟨rb, hrb, hrbid, hrbtitle⟩ := hsound p.2 hp2
        have hta : ra.title = ra'.title := by
          refine huniq ra hra ra' hra' (by simp [hraid]) ?_
          rw [hraid, hraid', haP]
        have htb : rb.title = rb'.title := by
          refine huniq rb hrb rb' hrb' (by simp [hrbid]) ?_
          rw [hrbid, hrbid', hb2]
        apply hneq
        rw [← hratitle', ← hta, hratitle, ← hrbtitle', ← htb, hrbtitle]
      · rw [transferConn_eq] at hcP
        have hb2 : b = p.1 := by simpa using congrArg Conn.to_station hcP
        obtain ⟨ra, hra, hraid, hratitle⟩ := hsound p.2 hp2
        obtain ⟨rb, hrb, hrbid, hrbtitle⟩ := hsound p.1 hp1
        have hta : ra.title = ra'.title := by
          refine huniq ra hra ra' hra' (by simp [hraid]) ?_
          rw [hraid, hraid', haP]
        have htb : rb.title = rb'.title := by
          refine huniq rb hrb rb' hrb' (by simp [hrbid]) ?_
          rw [hrbid, hrbid', hb2]
        apply hneq
        rw [← hratitle', ← hta, hratitle, ← hrbtitle', ← htb, hrbtitle]

/-- C1 witness: the amended theorem applied to concrete networks — in
`exC1w` the same-titled stations `P1`, `P2` (both on railway `R`) carry the
bidirectional Transfer edge, and in `exLine` the differently titled `A`, `B`
carry none. -/
theorem transfer_synthesis_amended_witness :
    HasEdge exC1w.network_graph "P1" ⟨"P2", 5, "Transfer", 0⟩ ∧
    HasEdge exC1w.network_graph "P2" ⟨"P1", 5, "Transfer", 0⟩ ∧
    ¬ HasEdge exLine.network_graph "A" ⟨"B", 5, "Transfer", 0⟩ := by
  have h1 := (transfer_synthesis_amended exC1wStations exC1wRailways "P1" "P2"
    ⟨some "T", none, none, none, none⟩ ⟨some "T", none, none, none, none⟩
    (by decide) (by decide)).1 rfl (by decide) (by decide) (by decide)
  have h2 := (transfer_synthesis_amended exLineStations exLineRailways "A" "B"
    ⟨some "Alpha", none, none, none, none⟩ ⟨some "Beta", none, none, none, none⟩
    (by decide) (by decide)).2 (by decide) (by decide)
  exact ⟨h1.1, h1.2, h2⟩

/-- C7 counterexample: in `exC7` the railway `R1` has parsed station order
`[S1, S2, S3]`, yet the built graph does contain a direct edge between `S1`
and `S3` — contributed by the second railway `R2 = [S1, S3]` — refuting
"contains no direct edge between S1 and S3" as stated. -/
theorem railway_edges_counterexample :
    (rwRow "R1" [some "S1", some "S2", some "S3"] ∈ exC7railways ∧
      (rwRow "R1" [some "S1", some "S2", some "S3"]).station_order
        = some (.parsed [some "S1", some "S2", some "S3"])) ∧
    HasEdge exC7.network_graph "S1" ⟨"S3", 5/2, "R2", 1⟩ := by
  refine ⟨⟨by decide, by decide⟩, ?_⟩
  rw [← railConn_eq]
  rw [show exC7 = build_network exC7stations exC7railways from rfl, build_hasEdge]
  left
  exact ⟨rwRow "R2" [some "S1", some "S3"], by decide, "R2", [some "S1", some "S3"],
    rfl, rfl, "S1", "S3", by decide, Or.inl ⟨rfl, rfl⟩⟩

/-- C7 (amended): for a railway row with id `rid` and parsed station order
`[S1, S2, S3]` (nonempty, pairwise distinct ids; `rid` not the sentinel
"Transfer" and carried by no other railway row), the built graph contains
bidirectional edges `S1 ↔ S2` and `S2 ↔ S3` each with travel time 2.5, stop
count 1 and tag `rid`; no edge tagged `rid` connects `S1` and `S3` directly
(edges of other railways or transfers may); and every edge tagged `rid`
joins consecutive entries of the order list. -/
theorem railway_edges_amended (stations : List StationRow) (railways : List RailwayRow)
    (row : RailwayRow) (rid s1 s2 s3 : String)
    (hrow : row ∈ railways) (hid : row.same_as = some rid)
    (horder : row.station_order = some (.parsed [some s1, some s2, some s3]))
    (h1 : s1 ≠ "") (h2 : s2 ≠ "") (h3 : s3 ≠ "")
    (hd12 : s1 ≠ s2) (hd23 : s2 ≠ s3) (hd13 : s1 ≠ s3)
    (huniq : ∀ row' ∈ railways, row'.same_as = some rid → row' = row)
    (hT : rid ≠ "Transfer") :
    HasEdge (build_network stations railways).network_graph s1 ⟨s2, 5/2, rid, 1⟩ ∧
    HasEdge (build_network stations railways).network_graph s2 ⟨s1, 5/2, rid, 1⟩ ∧
    HasEdge (build_network stations railways).network_graph s2 ⟨s3, 5/2, rid, 1⟩ ∧
    HasEdge (build_network stations railways).network_graph s3 ⟨s2, 5/2, rid, 1⟩ ∧
    (∀ c : Conn, c.railway = rid →
      HasEdge (build_network stations railways).network_graph s1 c →
      c.to_station ≠ s3) ∧
    (∀ c : Conn, c.railway = rid →
      HasEdge (build_network stations railways).network_graph s3 c →
      c.to_station ≠ s1) ∧
    (∀ (a : String) (c : Conn), c.railway = rid →
      HasEdge (build_network stations railways).network_graph a c →
      ((a = s1 ∧ c.to_station = s2) ∨ (a = s2 ∧ c.to_station = s1) ∨
       (a = s2 ∧ c.to_station = s3) ∨ (a = s3 ∧ c.to_station = s2))) := by
  have hadj : adjPairs [some s1, some s2, some s3] = [(s1, s2), (s2, s3)] := by
    simp [adjPairs, truthy, h1, h2, h3]
  have hgen : ∀ (a : String) (c : Conn), c.railway = rid →
      HasEdge (build_network stations railways).network_graph a c →
      ((a = s1 ∧ c.to_station = s2) ∨ (a = s2 ∧ c.to_station = s1) ∨
       (a = s2 ∧ c.to_station = s3) ∨ (a = s3 ∧ c.to_station = s2)) := by
    intro a c hcr hedge
    rw [build_hasEdge] at hedge
    rcases hedge with ⟨r', hr', rid', entries', hsame', horder', x, y, hxy, hc⟩ |
      ⟨q, hq, hlen, p, hp, hc⟩
    · have hrid' : rid' = rid := by
        rcases hc with ⟨_, hc⟩ | ⟨_, hc⟩ <;>
          (rw [← hcr, hc, railConn_eq])
      subst hrid'
      have hre : r' = row := huniq r' hr' hsame'
      subst hre
      rw [horder] at horder'
      injection horder' with horder'
      injection horder' with horder'
      subst horder'
      rw [hadj] at hxy
      simp only [List.mem_cons, List.not_mem_nil, or_false, Prod.mk.injEq] at hxy
      rcases hxy with ⟨hx, hy⟩ | ⟨hx, hy⟩ <;> subst hx <;> subst hy <;>
        rcases hc with ⟨hax, hcc⟩ | ⟨hax, hcc⟩ <;> subst hax <;>
          rw [hcc, railConn_eq] <;> simp [hd12, hd23, hd13]
    · exfalso
      apply hT
      rcases hc with ⟨_, _, hc⟩ | ⟨_, _, hc⟩ <;>
        (rw [← hcr, hc, transferConn_eq])
  refine ⟨?_, ?_, ?_, ?_, ?_, ?_, hgen⟩
  · rw [← railConn_eq, build_hasEdge]
    exact Or.inl ⟨row, hrow, rid, [some s1, some s2, some s3], hid, horder, s1, s2,
      by rw [hadj]; exact List.mem_cons_self _ _, Or.inl ⟨rfl, rfl⟩⟩
  · rw [← railConn_eq, build_hasEdge]
    exact Or.inl ⟨row, hrow, rid, [some s1, some s2, some s3], hid, horder, s1, s2,
      by rw [hadj]; exact List.mem_cons_self _ _, Or.inr ⟨rfl, rfl⟩⟩
  · rw [← railConn_eq, build_hasEdge]
    exact Or.inl ⟨row, hrow, rid, [some s1, some s2, some s3], hid, horder, s2, s3,
      by rw [hadj]; exact List.mem_cons_of_mem _ (List.mem_cons_self _ _),
      Or.inl ⟨rfl, rfl⟩⟩
  · rw [← railConn_eq, build_hasEdge]
    exact Or.inl ⟨row, hrow, rid, [some s1, some s2, some s3], hid, horder, s2, s3,
      by rw [hadj]; exact List.mem_cons_of_mem _ (List.mem_cons_self _ _),
      Or.inr ⟨rfl, rfl⟩⟩
  · intro c hcr hedge hto
    rcases hgen s1 c hcr hedge with ⟨_, h⟩ | ⟨h, _⟩ | ⟨h, _⟩ | ⟨h, _⟩
    · exact hd23 ((hto ▸ h).symm ▸ rfl)
    · exact hd12 h
    · exact hd12 h
    · exact hd13 h
  · intro c hcr hedge hto
    rcases hgen s3 c hcr hedge with ⟨h, _⟩ | ⟨h, _⟩ | ⟨h, _⟩ | ⟨_, h⟩
    · exact hd13 h.symm
    · exact hd23 h.symm
    · exact hd23 h.symm
    · exact hd12 ((hto ▸ h).symm ▸ rfl)

/-- C7 witness: the amended theorem applied to the concrete network `exC7`,
whose railway `R1` has order `[S1, S2, S3]`. -/
theorem railway_edges_amended_witness :
    HasEdge exC7.network_graph "S1" ⟨"S2", 5/2, "R1", 1⟩ ∧
    (∀ c : Conn, c.railway = "R1" → HasEdge exC7.network_graph "S1" c →
      c.to_station ≠ "S3") := by
  have h := railway_edges_amended exC7stations exC7railways
    (rwRow "R1" [some "S1", some "S2", some "S3"]) "R1" "S1" "S2" "S3"
    (by decide) rfl rfl (by decide) (by decide) (by decide) (by decide) (by decide)
    (by decide) (by decide) (by decide)
  exact ⟨h.1, h.2.2.2.2.1⟩

/-- Any station entry whose title is NULL — or whose English title is NULL
while the title does not match the query — makes `searchFold` (and hence
`search_station`) return the error result, wherever it sits in the map:
the loop applies `.lower()` to the null value before it can return. -/
theorem searchFold_none {q : String} :
    ∀ {l : List (String × StationInfoEntry)} {id : String} {info : StationInfoEntry},
      (id, info) ∈ l →
      (info.title = none ∨ ∃ t, info.title = some t ∧ substrCI q t = false ∧
        info.title_en = none) →
      searchFold q l = none := by
  intro l
  induction l with
  | nil => intro id info h _; simp at h
  | cons hd rest ih =>
    intro id info hmem hbad
    obtain ⟨id0, info0⟩ := hd
    rcases List.mem_cons.mp hmem with heq | htl
    · rw [Prod.mk.injEq] at heq
      obtain ⟨h1, h2⟩ := heq
      subst h2
      rcases hbad with hb | ⟨t, ht, hsub, hen⟩
      · simp [searchFold, hb]
      · simp [searchFold, ht, hsub, hen]
    · cases h0 : info0.title with
      | none => simp [searchFold, h0]
      | some t0 =>
        by_cases hs : substrCI q t0 = true
        · simp [searchFold, h0, hs, ih htl hbad]
        · cases he0 : info0.title_en with
          | none =>
            simp only [Bool.not_eq_true] at hs
            simp [searchFold, h0, hs, he0]
          | some te0 =>
            simp only [Bool.not_eq_true] at hs
            by_cases hse : substrCI q te0 = true
            · simp [searchFold, h0, hs, he0, hse, ih htl hbad]
            · simp only [Bool.not_eq_true] at hse
              simp [searchFold, h0, hs, he0, hse, ih htl hbad]

/-- C10: `search_station` is total only under the precondition that every
loaded station's title and English title are non-null: a station whose
title is NULL, or whose English title is NULL while its title does not
contain the query, makes the case-insensitive comparison hit the null value
and the search raises (modelled as the `none` result) instead of returning
a result list. -/
theorem search_station_raises_on_null_title (O : Optimizer) (q id : String)
    (info : StationInfoEntry)
    (hmem : (id, info) ∈ O.station_info)
    (hbad : info.title = none ∨
      (∃ t, info.title = some t ∧ substrCI q t = false ∧ info.title_en = none)) :
    search_station O q = none := by
  unfold search_station
  rw [searchFold_none hmem hbad]
  rfl

/-- C10 witness: in the state built from a persisted station record lacking
a bilingual-title mapping (`title_en` NULL), searching a non-matching term
raises. -/
theorem search_station_raises_on_null_title_witness :
    search_station exC10 "zzz" = none :=
  search_station_raises_on_null_title exC10 "zzz" "S1"
    ⟨some "Abc", none, none, none, none⟩ (by decide)
    (Or.inr ⟨"Abc", rfl, by decide, rfl⟩)

/-! ### Priority-queue lemmas -/

theorem entryLeB_le {e1 e2 : Entry} (h : entryLeB e1 e2 = true) : e1.1 ≤ e2.1 := by
  unfold entryLeB at h
  rcases Bool.or_eq_true_iff.mp h with h | h
  · exact le_of_lt (by exact_mod_cast of_decide_eq_true h)
  · rcases Bool.and_eq_true_iff.mp h with ⟨h1, _⟩
    exact le_of_eq (eq_of_beq h1)

theorem entryLeB_false_le {e1 e2 : Entry} (h : entryLeB e1 e2 = false) : e2.1 ≤ e1.1 := by
  unfold entryLeB at h
  rcases Bool.or_eq_false_iff.mp h with ⟨h1, _⟩
  exact le_of_not_lt (of_decide_eq_false h1)

theorem popMin_eq_none_iff (pq : List Entry) : popMin pq = none ↔ pq = [] := by
  cases pq with
  | nil => simp [popMin]
  | cons e rest =>
    simp only [popMin]
    cases h : popMin rest with
    | none => simp
    | some p =>
      obtain ⟨m, rest'⟩ := p
      by_cases hle : entryLeB e m = true <;> simp [hle]

theorem popMin_perm :
    ∀ {pq : List Entry} {e : Entry} {rest : List Entry},
      popMin pq = some (e, rest) → pq.Perm (e :: rest) := by
  intro pq
  induction pq with
  | nil => intro e rest h; simp [popMin] at h
  | cons x xs ih =>
    intro e rest h
    simp only [popMin] at h
    cases h0 : popMin xs with
    | none =>
      rw [h0] at h
      simp only [Option.some.injEq, Prod.mk.injEq] at h
      obtain ⟨h1, h2⟩ := h
      subst h1
      subst h2
      rw [(popMin_eq_none_iff xs).mp h0]
    | some p =>
      obtain ⟨m, rest'⟩ := p
      rw [h0] at h
      by_cases hle : entryLeB x m = true
      · simp only [hle, if_true, Option.some.injEq, Prod.mk.injEq] at h
        obtain ⟨h1, h2⟩ := h
        subst h1
        subst h2
        exact List.Perm.refl _
      · have hle' : entryLeB x m = false := by simpa using hle
        simp only [hle', Bool.false_eq_true, if_false, Option.some.injEq,
          Prod.mk.injEq] at h
        obtain ⟨h1, h2⟩ := h
        subst h1
        subst h2
        have hxs := ih h0
        exact (hxs.cons x).trans (List.Perm.swap m x rest')

theorem popMin_mem {pq : List Entry} {e : Entry} {rest : List Entry}
    (h : popMin pq = some (e, rest)) : e ∈ pq :=
  (popMin_perm h).mem_iff.mpr (List.mem_cons_self e rest)

theorem popMin_rest_mem {pq : List Entry} {e : Entry} {rest : List Entry}
    (h : popMin pq = some (e, rest)) {e' : Entry} (h' : e' ∈ rest) : e' ∈ pq :=
  (popMin_perm h).mem_iff.mpr (List.mem_cons_of_mem e h')

theorem popMin_length {pq : List Entry} {e : Entry} {rest : List Entry}
    (h : popMin pq = some (e, rest)) : pq.length = rest.length + 1 := by
  have := (popMin_perm h).length_eq
  simpa using this

theorem popMin_min :
    ∀ {pq : List Entry} {e : Entry} {rest : List Entry},
      popMin pq = some (e, rest) → ∀ e' ∈ pq, e.1 ≤ e'.1 := by
  intro pq
  induction pq with
  | nil => intro e rest h; simp [popMin] at h
  | cons x xs ih =>
    intro e rest h e' he'
    simp only [popMin] at h
    cases h0 : popMin xs with
    | none =>
      rw [h0] at h
      simp only [Option.some.injEq, Prod.mk.injEq] at h
      obtain ⟨h1, _⟩ := h
      subst h1
      have hnil := (popMin_eq_none_iff xs).mp h0
      subst hnil
      simp only [List.mem_singleton] at he'
      subst he'
      exact le_refl _
    | some p =>
      obtain ⟨m, rest'⟩ := p
      rw [h0] at h
      by_cases hle : entryLeB x m = true
      · simp only [hle, if_true, Option.some.injEq, Prod.mk.injEq] at h
        obtain ⟨h1, _⟩ := h
        subst h1
        rcases List.mem_cons.mp he' with h' | h'
        · subst h'; exact le_refl _
        · exact le_trans (entryLeB_le hle) (ih h0 e' h')
      · have hle' : entryLeB x m = false := by simpa using hle
        simp only [hle', Bool.false_eq_true, if_false, Option.some.injEq,
          Prod.mk.injEq] at h
        obtain ⟨h1, _⟩ := h
        subst h1
        rcases List.mem_cons.mp he' with h' | h'
        · subst h'; exact entryLeB_false_le hle'
        · exact ih h0 e' h'

/-! ### Relaxation lemmas -/

theorem relaxConn_cases (maxT : ℚ) (cur : String) (t : ℚ) (path : List RouteSegment)
    (acc : List (String × ℚ × Route) × List Entry) (c : Conn) :
    relaxConn maxT cur t path acc c = acc ∨
    (t + c.travel_time ≤ maxT ∧
      (dictLookup acc.1 c.to_station = none ∨
        ∃ d0 r0, dictLookup acc.1 c.to_station = some (d0, r0) ∧
          t + c.travel_time < d0) ∧
      relaxConn maxT cur t path acc c =
        (updD acc.1 c.to_station fun _ =>
           (t + c.travel_time, relaxRoute cur t path c),
         acc.2 ++ [(t + c.travel_time, c.to_station,
           path ++ [relaxSeg cur c])])) := by
  by_cases hle : t + c.travel_time ≤ maxT
  · cases h0 : dictLookup acc.1 c.to_station with
    | none =>
      right
      exact ⟨hle, Or.inl rfl, by simp [relaxConn, hle, h0]⟩
    | some tr =>
      by_cases hlt : t + c.travel_time < tr.1
      · right
        refine ⟨hle, Or.inr ⟨tr.1, tr.2, by simp, hlt⟩, ?_⟩
        simp [relaxConn, hle, h0, hlt]
      · left
        simp [relaxConn, hle, h0, hlt]
  · left
    simp [relaxConn, hle]

theorem relaxConn_lookup_mono {maxT : ℚ} {cur : String} {t : ℚ}
    {path : List RouteSegment} {acc : List (String × ℚ × Route) × List Entry}
    {c : Conn} {u : String} {d : ℚ} {r : Route}
    (h : dictLookup acc.1 u = some (d, r)) :
    ∃ d' r', dictLookup (relaxConn maxT cur t path acc c).1 u = some (d', r') ∧
      d' ≤ d := by
  rcases relaxConn_cases maxT cur t path acc c with he | ⟨hle, hprev, he⟩
  · exact ⟨d, r, by rw [he]; exact h, le_refl d⟩
  · rw [he]
    simp only [dictLookup_updD]
    by_cases hu : u = c.to_station
    · subst hu
      rcases hprev with h0 | ⟨d0, r0, h0, hlt⟩
      · rw [h0] at h; cases h
      · rw [h0] at h
        injection h with h
        rw [Prod.mk.injEq] at h
        refine ⟨t + c.travel_time, relaxRoute cur t path c, by simp, ?_⟩
        rw [← h.1]
        exact le_of_lt hlt
    · exact ⟨d, r, by simp [hu, h], le_refl d⟩

theorem expand_dist_mono {maxT : ℚ} {cur : String} {t : ℚ}
    {path : List RouteSegment} :
    ∀ (conns : List Conn) (acc : List (String × ℚ × Route) × List Entry)
      {u : String} {d : ℚ} {r : Route},
      dictLookup acc.1 u = some (d, r) →
      ∃ d' r',
        dictLookup (conns.foldl (relaxConn maxT cur t path) acc).1 u = some (d', r') ∧
        d' ≤ d := by
  intro conns
  induction conns with
  | nil => intro acc u d r h; exact ⟨d, r, h, le_refl d⟩
  | cons c cs ih =>
    intro acc u d r h
    simp only [List.foldl_cons]
    obtain ⟨d1, r1, h1, hle1⟩ := @relaxConn_lookup_mono maxT cur t path acc c _ _ _ h
    obtain ⟨d2, r2, h2, hle2⟩ := ih _ h1
    exact ⟨d2, r2, h2, le_trans hle2 hle1⟩

theorem expand_dist_new {maxT : ℚ} {cur : String} {t : ℚ}
    {path : List RouteSegment} :
    ∀ (conns : List Conn) (acc : List (String × ℚ × Route) × List Entry)
      {u : String} {d : ℚ} {r : Route},
      dictLookup (conns.foldl (relaxConn maxT cur t path) acc).1 u = some (d, r) →
      dictLookup acc.1 u = some (d, r) ∨
        ∃ c ∈ conns, u = c.to_station ∧ d = t + c.travel_time ∧
          r = relaxRoute cur t path c ∧ d ≤ maxT := by
  intro conns
  induction conns with
  | nil => intro acc u d r h; exact Or.inl h
  | cons c cs ih =>
    intro acc u d r h
    simp only [List.foldl_cons] at h
    rcases ih _ h with h' | ⟨c', hc', h'⟩
    · rcases relaxConn_cases maxT cur t path acc c with he | ⟨hle, _, he⟩
      · rw [he] at h'
        exact Or.inl h'
      · rw [he] at h'
        rw [dictLookup_updD] at h'
        by_cases hu : u = c.to_station
        · subst hu
          simp only [if_pos rfl] at h'
          injection h' with h'
          rw [Prod.mk.injEq] at h'
          exact Or.inr ⟨c, List.mem_cons_self c cs,
            rfl, h'.1.symm, h'.2.symm, h'.1 ▸ hle⟩
        · rw [if_neg hu] at h'
          exact Or.inl h'
    · exact Or.inr ⟨c', List.mem_cons_of_mem c hc', h'⟩

theorem expand_pq_mono {maxT : ℚ} {cur : String} {t : ℚ}
    {path : List RouteSegment} :
    ∀ (conns : List Conn) (acc : List (String × ℚ × Route) × List Entry)
      {e : Entry}, e ∈ acc.2 →
      e ∈ (conns.foldl (relaxConn maxT cur t path) acc).2 := by
  intro conns
  induction conns with
  | nil => intro acc e he; exact he
  | cons c cs ih =>
    intro acc e he
    simp only [List.foldl_cons]
    apply ih
    rcases relaxConn_cases maxT cur t path acc c with h | ⟨_, _, h⟩
    · rw [h]; exact he
    · rw [h]; exact List.mem_append_left _ he

theorem expand_pq_new {maxT : ℚ} {cur : String} {t : ℚ}
    {path : List RouteSegment} :
    ∀ (conns : List Conn) (acc : List (String × ℚ × Route) × List Entry)
      {e : Entry}, e ∈ (conns.foldl (relaxConn maxT cur t path) acc).2 →
      e ∈ acc.2 ∨ ∃ c ∈ conns,
        e = (t + c.travel_time, c.to_station, path ++ [relaxSeg cur c]) ∧
        t + c.travel_time ≤ maxT := by
  intro conns
  induction conns with
  | nil => intro acc e he; exact Or.inl he
  | cons c cs ih =>
    intro acc e he
    simp only [List.foldl_cons] at he
    rcases ih _ he with h' | ⟨c', hc', h'⟩
    · rcases relaxConn_cases maxT cur t path acc c with h | ⟨hle, _, h⟩
      · rw [h] at h'
        exact Or.inl h'
      · rw [h] at h'
        rcases List.mem_append.mp h' with h'' | h''
        · exact Or.inl h''
        · simp only [List.mem_singleton] at h''
          exact Or.inr ⟨c, List.mem_cons_self c cs, h'', hle⟩
    · exact Or.inr ⟨c', List.mem_cons_of_mem c hc', h'⟩

theorem expand_dist_stable {maxT : ℚ} {cur : String} {t : ℚ}
    {path : List RouteSegment} :
    ∀ (conns : List Conn) (acc : List (String × ℚ × Route) × List Entry)
      {u : String} {d : ℚ} {r : Route},
      (∀ c ∈ conns, 0 ≤ c.travel_time) →
      dictLookup acc.1 u = some (d, r) → d ≤ t →
      dictLookup (conns.foldl (relaxConn maxT cur t path) acc).1 u = some (d, r) := by
  intro conns
  induction conns with
  | nil => intro acc u d r _ h _; exact h
  | cons c cs ih =>
    intro acc u d r hw h hdt
    simp only [List.foldl_cons]
    refine ih _ (fun c' hc' => hw c' (List.mem_cons_of_mem c hc')) ?_ hdt
    rcases relaxConn_cases maxT cur t path acc c with he | ⟨hle, hprev, he⟩
    · rw [he]; exact h
    · rw [he]
      rw [dictLookup_updD]
      by_cases hu : u = c.to_station
      · subst hu
        rcases hprev with h0 | ⟨d0, r0, h0, hlt⟩
        · rw [h0] at h; cases h
        · rw [h0] at h
          injection h with h
          rw [Prod.mk.injEq] at h
          exfalso
          have h1 : t ≤ t + c.travel_time :=
            le_add_of_nonneg_right (hw c (List.mem_cons_self c cs))
          have h2 : t + c.travel_time < d0 := hlt
          rw [← h.1] at hdt
          exact absurd (lt_of_le_of_lt (le_trans hdt h1) h2) (lt_irrefl d0)
      · rw [if_neg hu]
        exact h

theorem expand_pq_length {maxT : ℚ} {cur : String} {t : ℚ}
    {path : List RouteSegment} :
    ∀ (conns : List Conn) (acc : List (String × ℚ × Route) × List Entry),
      (conns.foldl (relaxConn maxT cur t path) acc).2.length ≤
        acc.2.length + conns.length := by
  intro conns
  induction conns with
  | nil => intro acc; simp
  | cons c cs ih =>
    intro acc
    simp only [List.foldl_cons, List.length_cons]
    refine le_trans (ih _) ?_
    rcases relaxConn_cases maxT cur t path acc c with h | ⟨_, _, h⟩
    · rw [h]; omega
    · rw [h]; simp; omega

theorem expand_ndk {maxT : ℚ} {cur : String} {t : ℚ}
    {path : List RouteSegment} :
    ∀ (conns : List Conn) (acc : List (String × ℚ × Route) × List Entry),
      (acc.1.map Prod.fst).Nodup →
      ((conns.foldl (relaxConn maxT cur t path) acc).1.map Prod.fst).Nodup := by
  intro conns
  induction conns with
  | nil => intro acc h; exact h
  | cons c cs ih =>
    intro acc h
    simp only [List.foldl_cons]
    refine ih _ ?_
    rcases relaxConn_cases maxT cur t path acc c with he | ⟨_, _, he⟩
    · rw [he]; exact h
    · rw [he]; exact updD_keys_nodup h

theorem relaxConn_relaxes {maxT : ℚ} {cur : String} {t : ℚ}
    {path : List RouteSegment} (acc : List (String × ℚ × Route) × List Entry)
    {c : Conn} (hle : t + c.travel_time ≤ maxT) :
    ∃ d' r', dictLookup (relaxConn maxT cur t path acc c).1 c.to_station
        = some (d', r') ∧ d' ≤ t + c.travel_time := by
  unfold relaxConn
  simp only [hle, if_true]
  cases h0 : dictLookup acc.1 c.to_station with
  | none =>
    refine ⟨t + c.travel_time, relaxRoute cur t path c, ?_, le_refl _⟩
    simp [dictLookup_updD]
  | some tr =>
    by_cases hlt : t + c.travel_time < tr.1
    · simp only [hlt, if_true]
      refine ⟨t + c.travel_time, relaxRoute cur t path c, ?_, le_refl _⟩
      simp [dictLookup_updD]
    · simp only [hlt, if_false]
      exact ⟨tr.1, tr.2, by simp [h0], le_of_not_lt hlt⟩

theorem expand_relaxes {maxT : ℚ} {cur : String} {t : ℚ}
    {path : List RouteSegment} :
    ∀ (conns : List Conn) (acc : List (String × ℚ × Route) × List Entry)
      {c : Conn}, c ∈ conns → t + c.travel_time ≤ maxT →
      ∃ d' r',
        dictLookup (conns.foldl (relaxConn maxT cur t path) acc).1 c.to_station
          = some (d', r') ∧ d' ≤ t + c.travel_time := by
  intro conns
  induction conns with
  | nil => intro acc c hc; simp at hc
  | cons c0 cs ih =>
    intro acc c hc hle
    simp only [List.foldl_cons]
    rcases List.mem_cons.mp hc with hc' | hc'
    · subst hc'
      obtain ⟨d1, r1, h1, hle1⟩ := relaxConn_relaxes acc hle
      obtain ⟨d2, r2, h2, hle2⟩ := expand_dist_mono cs _ h1
      exact ⟨d2, r2, h2, le_trans hle2 hle1⟩
    · exact ih _ hc' hle

theorem expand_pqKey {maxT : ℚ} {cur : String} {t : ℚ}
    {path : List RouteSegment} :
    ∀ (conns : List Conn) (acc : List (String × ℚ × Route) × List Entry),
      (∀ e ∈ acc.2, ∃ d r, dictLookup acc.1 e.2.1 = some (d, r) ∧ d ≤ e.1) →
      ∀ e ∈ (conns.foldl (relaxConn maxT cur t path) acc).2,
        ∃ d r,
          dictLookup (conns.foldl (relaxConn maxT cur t path) acc).1 e.2.1
            = some (d, r) ∧ d ≤ e.1 := by
  intro conns
  induction conns with
  | nil => intro acc h; exact h
  | cons c cs ih =>
    intro acc h
    simp only [List.foldl_cons]
    apply ih
    intro e he
    rcases relaxConn_cases maxT cur t path acc c with hc | ⟨hle, _, hc⟩
    · rw [hc] at he ⊢
      exact h e he
    · rw [hc] at he ⊢
      rcases List.mem_append.mp he with he' | he'
      · obtain ⟨d, r, hl, hd⟩ := h e he'
        rw [show (updD acc.1 c.to_station fun _ =>
            (t + c.travel_time, relaxRoute cur t path c),
            acc.2 ++ [(t + c.travel_time, c.to_station,
              path ++ [relaxSeg cur c])]).1
          = updD acc.1 c.to_station (fun _ =>
            (t + c.travel_time, relaxRoute cur t path c)) from rfl]
        rw [dictLookup_updD]
        by_cases hu : e.2.1 = c.to_station
        · rw [hu] at hl
          rw [if_pos hu]
          refine ⟨t + c.travel_time, relaxRoute cur t path c, rfl, ?_⟩
          rcases relaxConn_cases maxT cur t path acc c with hc2 | ⟨_, hprev, hc2⟩
          · rw [hc] at hc2
            exfalso
            have := congrArg Prod.snd hc2
            simp at this
          · rw [hc] at hc2
            rcases hprev with h0 | ⟨d0, r0, h0, hlt⟩
            · rw [h0] at hl; cases hl
            · rw [h0] at hl
              injection hl with hl
              rw [Prod.mk.injEq] at hl
              exact le_trans (le_of_lt (hl.1 ▸ hlt)) hd
        · rw [if_neg hu]
          exact ⟨d, r, hl, hd⟩
      · simp only [List.mem_singleton] at he'
        subst he'
        refine ⟨t + c.travel_time, relaxRoute cur t path c, ?_, le_refl _⟩
        simp [dictLookup_updD]

theorem expand_fresh {maxT : ℚ} {cur : String} {t : ℚ}
    {path : List RouteSegment} (V : List String) :
    ∀ (conns : List Conn) (acc : List (String × ℚ × Route) × List Entry),
      (∀ u d r, dictLookup acc.1 u = some (d, r) → u ∉ V →
        ∃ e ∈ acc.2, e.2.1 = u ∧ e.1 = d) →
      ∀ u d r,
        dictLookup (conns.foldl (relaxConn maxT cur t path) acc).1 u = some (d, r) →
        u ∉ V →
        ∃ e ∈ (conns.foldl (relaxConn maxT cur t path) acc).2,
          e.2.1 = u ∧ e.1 = d := by
  intro conns
  induction conns with
  | nil => intro acc h; exact h
  | cons c cs ih =>
    intro acc h
    simp only [List.foldl_cons]
    apply ih
    intro u d r hl hu
    rcases relaxConn_cases maxT cur t path acc c with hc | ⟨hle, _, hc⟩
    · rw [hc] at hl ⊢
      exact h u d r hl hu
    · rw [hc] at hl ⊢
      rw [show (updD acc.1 c.to_station fun _ =>
          (t + c.travel_time, relaxRoute cur t path c),
          acc.2 ++ [(t + c.travel_time, c.to_station,
            path ++ [relaxSeg cur c])]).1
        = updD acc.1 c.to_station (fun _ =>
          (t + c.travel_time, relaxRoute cur t path c)) from rfl] at hl
      rw [dictLookup_updD] at hl
      by_cases huc : u = c.to_station
      · rw [if_pos huc] at hl
        injection hl with hl
        rw [Prod.mk.injEq] at hl
        refine ⟨(t + c.travel_time, c.to_station, path ++ [relaxSeg cur c]),
          List.mem_append_right _ (List.mem_singleton_self _), ?_, ?_⟩
        · exact huc.symm
        · exact hl.1
      · rw [if_neg huc] at hl
        obtain ⟨e, he, heq⟩ := h u d r hl hu
        exact ⟨e, List.mem_append_left _ he, heq⟩

/-! ### Path bookkeeping helpers -/

theorem sumTimes_append (l : List RouteSegment) (s : RouteSegment) :
    sumTimes (l ++ [s]) = sumTimes l + s.travel_time := by
  simp [sumTimes]

theorem chainFromToB_append :
    ∀ {segs : List RouteSegment} {start cur : String},
      chainFromToB segs start cur = true → ∀ (seg : RouteSegment),
      seg.from_station = cur →
      chainFromToB (segs ++ [seg]) start seg.to_station = true := by
  intro segs
  induction segs with
  | nil =>
    intro start cur h seg hfrom
    simp only [chainFromToB, beq_iff_eq] at h
    subst h
    simp [chainFromToB, hfrom]
  | cons s0 rest ih =>
    intro start cur h seg hfrom
    simp only [chainFromToB, Bool.and_eq_true] at h
    simp only [List.cons_append, chainFromToB, Bool.and_eq_true]
    exact ⟨h.1, ih h.2 seg hfrom⟩

theorem chainFromToB_append_split :
    ∀ {segs : List RouteSegment} {start v : String} {seg : RouteSegment},
      chainFromToB (segs ++ [seg]) start v = true →
      chainFromToB segs start seg.from_station = true ∧ seg.to_station = v := by
  intro segs
  induction segs with
  | nil =>
    intro start v seg h
    simp only [List.nil_append, chainFromToB, Bool.and_eq_true, beq_iff_eq] at h
    obtain ⟨h1, h2⟩ := h
    constructor
    · simp [chainFromToB, h1]
    · exact h2.symm
  | cons s0 rest ih =>
    intro start v seg h
    simp only [List.cons_append, chainFromToB, Bool.and_eq_true] at h
    obtain ⟨h1, h2⟩ := h
    obtain ⟨h3, h4⟩ := ih h2
    exact ⟨by simp [chainFromToB, Bool.and_eq_true, h1, h3], h4⟩

theorem validSegB_time_nonneg {g : List (String × List Conn)}
    (hw : GraphNonneg g) {s : RouteSegment} (h : validSegB g s = true) :
    0 ≤ s.travel_time := by
  unfold validSegB at h
  obtain ⟨l, hl, hmem⟩ := hasEdge_iff.mp h
  exact hw _ l hl _ hmem

theorem validSegB_conn {g : List (String × List Conn)} {s : RouteSegment}
    (h : validSegB g s = true) :
    ∃ conns, dictLookup g s.from_station = some conns ∧
      (⟨s.to_station, s.travel_time, s.railway, s.num_stops⟩ : Conn) ∈ conns := by
  unfold validSegB at h
  exact hasEdge_iff.mp h

/-! ### Support membership -/

theorem graphTargets_mem :
    ∀ {g : List (String × List Conn)} {k : String} {conns : List Conn},
      (k, conns) ∈ g →
      k ∈ graphTargets g ∧ ∀ c ∈ conns, c.to_station ∈ graphTargets g := by
  intro g
  induction g with
  | nil => intro k conns h; simp at h
  | cons p rest ih =>
    intro k conns h
    simp only [graphTargets, List.foldr_cons]
    rcases List.mem_cons.mp h with h' | h'
    · subst h'
      constructor
      · exact List.mem_cons_self _ _
      · intro c hc
        refine List.mem_cons_of_mem _ (List.mem_append_left _ ?_)
        exact List.mem_map.mpr ⟨c, hc, rfl⟩
    · obtain ⟨h1, h2⟩ := ih h'
      constructor
      · exact List.mem_cons_of_mem _ (List.mem_append_right _ h1)
      · intro c hc
        exact List.mem_cons_of_mem _ (List.mem_append_right _ (h2 c hc))

theorem conns_length_le_totalDeg {g : List (String × List Conn)} {k : String}
    {conns : List Conn} (h : dictLookup g k = some conns) :
    conns.length ≤ totalDeg g := by
  have hm : (k, conns) ∈ g := dictLookup_mem h
  unfold totalDeg
  exact List.single_le_sum (fun x _ => Nat.zero_le x) conns.length
    (List.mem_map.mpr ⟨(k, conns), hm, rfl⟩)

/-! ### Loop invariant preservation -/

theorem dloop_wf (g : List (String × List Conn)) (start : String) (maxT : ℚ) :
    ∀ (fuel : Nat) (st : DState), WfInv g start st →
      WfInv g start (dloop g maxT fuel st) := by
  intro fuel
  induction fuel with
  | zero => intro st h; exact h
  | succ n ih =>
    intro st h
    simp only [dloop]
    cases hpop : popMin st.pq with
    | none => exact h
    | some p =>
      obtain ⟨e, pqRest⟩ := p
      simp only
      have hsub : ∀ e' ∈ pqRest, e'.2.1 ∈ dSupport g start :=
        fun e' he' => h.pqSup e' (popMin_rest_mem hpop he')
      by_cases hv : e.2.1 ∈ st.visited
      · rw [if_pos hv]
        exact ih _ ⟨hsub⟩
      · rw [if_neg hv]
        by_cases ht : maxT < e.1
        · rw [if_pos ht]
          exact ih _ ⟨hsub⟩
        · rw [if_neg ht]
          cases hg : dictLookup g e.2.1 with
          | none => exact ih _ ⟨hsub⟩
          | some conns =>
            simp only
            refine ih _ ⟨?_⟩
            intro e' he'
            rcases expand_pq_new conns (st.dist, pqRest) he' with h' | ⟨c, hc, h', _⟩
            · exact hsub e' h'
            · subst h'
              have hm : (e.2.1, conns) ∈ g := dictLookup_mem hg
              exact List.mem_cons_of_mem _ ((graphTargets_mem hm).2 c hc)

theorem dloop_bound (g : List (String × List Conn)) (maxT : ℚ) :
    ∀ (fuel : Nat) (st : DState), BoundInv maxT st →
      BoundInv maxT (dloop g maxT fuel st) := by
  intro fuel
  induction fuel with
  | zero => intro st h; exact h
  | succ n ih =>
    intro st h
    simp only [dloop]
    cases hpop : popMin st.pq with
    | none => exact h
    | some p =>
      obtain ⟨e, pqRest⟩ := p
      simp only
      have hsub : ∀ e' ∈ pqRest, e'.1 ≤ maxT :=
        fun e' he' => h.pqLe e' (popMin_rest_mem hpop he')
      by_cases hv : e.2.1 ∈ st.visited
      · rw [if_pos hv]
        exact ih _ ⟨h.distLe, hsub⟩
      · rw [if_neg hv]
        by_cases ht : maxT < e.1
        · rw [if_pos ht]
          exact ih _ ⟨h.distLe, hsub⟩
        · rw [if_neg ht]
          cases hg : dictLookup g e.2.1 with
          | none => exact ih _ ⟨h.distLe, hsub⟩
          | some conns =>
            simp only
            refine ih _ ⟨?_, ?_⟩
            · intro u d r hl
              rcases expand_dist_new conns (st.dist, pqRest) hl with h' | ⟨c, _, _, _, _, h'⟩
              · exact h.distLe u d r h'
              · exact h'
            · intro e' he'
              rcases expand_pq_new conns (st.dist, pqRest) he' with h' | ⟨c, _, h', hle⟩
              · exact hsub e' h'
              · rw [h']
                exact hle

theorem dloop_path (g : List (String × List Conn)) (start : String) (maxT : ℚ) :
    ∀ (fuel : Nat) (st : DState), PathInv g start st →
      PathInv g start (dloop g maxT fuel st) := by
  intro fuel
  induction fuel with
  | zero => intro st h; exact h
  | succ n ih =>
    intro st h
    simp only [dloop]
    cases hpop : popMin st.pq with
    | none => exact h
    | some p =>
      obtain ⟨e, pqRest⟩ := p
      simp only
      have hsub : ∀ e' ∈ pqRest, sumTimes e'.2.2 = e'.1 ∧
          chainFromToB e'.2.2 start e'.2.1 = true ∧
          ∀ seg ∈ e'.2.2, validSegB g seg = true :=
        fun e' he' => h.pqPath e' (popMin_rest_mem hpop he')
      by_cases hv : e.2.1 ∈ st.visited
      · rw [if_pos hv]
        exact ih _ ⟨h.distPath, hsub⟩
      · rw [if_neg hv]
        by_cases ht : maxT < e.1
        · rw [if_pos ht]
          exact ih _ ⟨h.distPath, hsub⟩
        · rw [if_neg ht]
          cases hg : dictLookup g e.2.1 with
          | none => exact ih _ ⟨h.distPath, hsub⟩
          | some conns =>
            simp only
            obtain ⟨hpsum, hpchain, hpvalid⟩ := h.pqPath e (popMin_mem hpop)
            have hsubE : ∀ c ∈ conns,
                validSegB g (relaxSeg e.2.1 c) = true := by
              intro c hc
              unfold validSegB relaxSeg
              refine hasEdge_iff.mpr ⟨conns, hg, ?_⟩
              simpa using hc
            refine ih _ ⟨?_, ?_⟩
            · intro u d r hl
              rcases expand_dist_new conns (st.dist, pqRest) hl with h' |
                ⟨c, hc, hu, hd, hr, _⟩
              · exact h.distPath u d r h'
              · subst hu
                subst hd
                subst hr
                refine ⟨rfl, ?_, rfl, ?_, ?_⟩
                · show e.1 + c.travel_time
                    = sumTimes (e.2.2 ++ [relaxSeg e.2.1 c])
                  rw [sumTimes_append, hpsum]
                  rfl
                · exact chainFromToB_append hpchain (relaxSeg e.2.1 c) rfl
                · intro seg hseg
                  rcases List.mem_append.mp hseg with hs' | hs'
                  · exact hpvalid seg hs'
                  · simp only [List.mem_singleton] at hs'
                    subst hs'
                    exact hsubE c hc
            · intro e' he'
              rcases expand_pq_new conns (st.dist, pqRest) he' with h' |
                ⟨c, hc, h', _⟩
              · exact hsub e' h'
              · subst h'
                refine ⟨?_, ?_, ?_⟩
                · show sumTimes (e.2.2 ++ [relaxSeg e.2.1 c]) = e.1 + c.travel_time
                  rw [sumTimes_append, hpsum]
                  rfl
                · exact chainFromToB_append hpchain (relaxSeg e.2.1 c) rfl
                · intro seg hseg
                  rcases List.mem_append.mp hseg with hs' | hs'
                  · exact hpvalid seg hs'
                  · simp only [List.mem_singleton] at hs'
                    subst hs'
                    exact hsubE c hc

theorem dloop_ndk (g : List (String × List Conn)) (maxT : ℚ) :
    ∀ (fuel : Nat) (st : DState), (st.dist.map Prod.fst).Nodup →
      ((dloop g maxT fuel st).dist.map Prod.fst).Nodup := by
  intro fuel
  induction fuel with
  | zero => intro st h; exact h
  | succ n ih =>
    intro st h
    simp only [dloop]
    cases hpop : popMin st.pq with
    | none => exact h
    | some p =>
      obtain ⟨e, pqRest⟩ := p
      simp only
      by_cases hv : e.2.1 ∈ st.visited
      · rw [if_pos hv]
        exact ih _ h
      · rw [if_neg hv]
        by_cases ht : maxT < e.1
        · rw [if_pos ht]
          exact ih _ h
        · rw [if_neg ht]
          cases hg : dictLookup g e.2.1 with
          | none => exact ih _ h
          | some conns =>
            simp only
            exact ih _ (expand_ndk conns (st.dist, pqRest) h)

theorem dloop_dij (g : List (String × List Conn)) (start : String) (maxT : ℚ)
    (hw : GraphNonneg g) :
    ∀ (fuel : Nat) (st : DState), DijInv g start maxT st →
      DijInv g start maxT (dloop g maxT fuel st) := by
  intro fuel
  induction fuel with
  | zero => intro st h; exact h
  | succ n ih =>
    intro st h
    simp only [dloop]
    cases hpop : popMin st.pq with
    | none => exact h
    | some p =>
      obtain ⟨e, pqRest⟩ := p
      simp only
      have hmem := popMin_mem hpop
      have hmin := popMin_min hpop
      have hrest : ∀ e' ∈ pqRest, e' ∈ st.pq := fun e' he' => popMin_rest_mem hpop he'
      have hmemrest : ∀ e'' ∈ st.pq, e'' ≠ e → e'' ∈ pqRest := by
        intro e'' hm hne
        rcases List.mem_cons.mp ((popMin_perm hpop).mem_iff.mp hm) with h' | h'
        · exact absurd h' hne
        · exact h'
      by_cases hv : e.2.1 ∈ st.visited
      · rw [if_pos hv]
        refine ih _ ⟨h.bound, fun e' he' => h.pqBound e' (hrest e' he'),
          fun e' he' => h.pqKey e' (hrest e' he'), ?_,
          fun v hv' d r hl e' he' => h.visLB v hv' d r hl e' (hrest e' he'),
          h.visDone, h.visKeys, h.startMem, h.ndk⟩
        intro u d r hl hu
        obtain ⟨e'', he'', hst'', ht''⟩ := h.fresh u d r hl hu
        have hne : e'' ≠ e := by
          intro hcon
          apply hu
          rw [← hst'', hcon]
          exact hv
        exact ⟨e'', hmemrest e'' he'' hne, hst'', ht''⟩
      · rw [if_neg hv]
        by_cases ht : maxT < e.1
        · rw [if_pos ht]
          exact absurd ht (not_lt.mpr (h.pqBound e hmem).2)
        · rw [if_neg ht]
          obtain ⟨ds, rs, hds, hdse⟩ := h.pqKey e hmem
          obtain ⟨e', he', hst', htime'⟩ := h.fresh e.2.1 ds rs hds hv
          have heq : ds = e.1 := le_antisymm hdse (htime' ▸ hmin e' he')
          rw [heq] at hds
          have hfreshBase : ∀ u d r, dictLookup st.dist u = some (d, r) →
              u ∉ (e.2.1 :: st.visited) → ∃ e'' ∈ pqRest, e''.2.1 = u ∧ e''.1 = d := by
            intro u d r hl hu
            have hu1 : u ∉ st.visited := fun hc => hu (List.mem_cons_of_mem _ hc)
            have hu2 : u ≠ e.2.1 := fun hc => hu (hc ▸ List.mem_cons_self _ _)
            obtain ⟨e'', he'', hst'', ht''⟩ := h.fresh u d r hl hu1
            have hne : e'' ≠ e := fun hc => hu2 (by rw [← hst'', hc])
            exact ⟨e'', hmemrest e'' he'' hne, hst'', ht''⟩
          cases hg : dictLookup g e.2.1 with
          | none =>
            refine ih _ ⟨h.bound, fun e' he' => h.pqBound e' (hrest e' he'),
              fun e' he' => h.pqKey e' (hrest e' he'), hfreshBase, ?_, ?_, ?_,
              h.startMem, h.ndk⟩
            · intro v hv' d r hl e'' he''
              rcases List.mem_cons.mp hv' with hveq | hvold
              · subst hveq
                rw [hds] at hl
                injection hl with hl
                rw [Prod.mk.injEq] at hl
                rw [← hl.1]
                exact hmin e'' (hrest e'' he'')
              · exact h.visLB v hvold d r hl e'' (hrest e'' he'')
            · intro v hv' d r hl conns0 hconns0 c hc hcle
              rcases List.mem_cons.mp hv' with hveq | hvold
              · subst hveq
                rw [hg] at hconns0
                cases hconns0
              · exact h.visDone v hvold d r hl conns0 hconns0 c hc hcle
            · intro v hv'
              rcases List.mem_cons.mp hv' with hveq | hvold
              · subst hveq
                exact ⟨e.1, rs, hds⟩
              · exact h.visKeys v hvold
          | some conns =>
            simp only
            have hwc : ∀ c ∈ conns, 0 ≤ c.travel_time := fun c hc => hw _ _ hg c hc
            have hb := h.bound e.2.1 e.1 rs hds
            have hstable : ∀ {v : String} {dv : ℚ} {rv : Route},
                dictLookup st.dist v = some (dv, rv) → dv ≤ e.1 →
                dictLookup ((conns.foldl (relaxConn maxT e.2.1 e.1 e.2.2)
                  (st.dist, pqRest)).1) v = some (dv, rv) := by
              intro v dv rv hl hle
              exact expand_dist_stable conns _ hwc hl hle
            have hfolds := hstable hds (le_refl e.1)
            refine ih _ ⟨?_, ?_, ?_, ?_, ?_, ?_, ?_, ?_, ?_⟩
            · intro u d r hl
              rcases expand_dist_new conns (st.dist, pqRest) hl with h' |
                ⟨c, hc, _, hd, _, hdle⟩
              · exact h.bound u d r h'
              · subst hd
                exact ⟨add_nonneg hb.1 (hwc c hc), hdle⟩
            · intro e'' he''
              rcases expand_pq_new conns (st.dist, pqRest) he'' with h' |
                ⟨c, hc, h', hle'⟩
              · exact h.pqBound e'' (hrest e'' h')
              · rw [h']
                exact ⟨add_nonneg hb.1 (hwc c hc), hle'⟩
            · refine expand_pqKey conns (st.dist, pqRest) ?_
              intro e'' he''
              exact h.pqKey e'' (hrest e'' he'')
            · exact expand_fresh (e.2.1 :: st.visited) conns (st.dist, pqRest) hfreshBase
            · intro v hv' d r hl e'' he''
              rcases List.mem_cons.mp hv' with hveq | hvold
              · subst hveq
                rw [hfolds] at hl
                injection hl with hl
                rw [Prod.mk.injEq] at hl
                rw [← hl.1]
                rcases expand_pq_new conns (st.dist, pqRest) he'' with h' |
                  ⟨c, hc, h', _⟩
                · exact hmin e'' (hrest e'' h')
                · rw [h']
                  exact le_add_of_nonneg_right (hwc c hc)
              · obtain ⟨dv, rv, hdv⟩ := h.visKeys v hvold
                have hdvle : dv ≤ e.1 := h.visLB v hvold dv rv hdv e hmem
                have hfoldv := hstable hdv hdvle
                rw [hfoldv] at hl
                injection hl with hl
                rw [Prod.mk.injEq] at hl
                rw [← hl.1]
                rcases expand_pq_new conns (st.dist, pqRest) he'' with h' |
                  ⟨c, hc, h', _⟩
                · exact h.visLB v hvold dv rv hdv e'' (hrest e'' h')
                · rw [h']
                  exact le_trans hdvle (le_add_of_nonneg_right (hwc c hc))
            · intro v hv' d r hl conns0 hconns0 c hc hcle
              rcases List.mem_cons.mp hv' with hveq | hvold
              · subst hveq
                rw [hfolds] at hl
                injection hl with hl
                rw [Prod.mk.injEq] at hl
                rw [hg] at hconns0
                injection hconns0 with hconns0
                subst hconns0
                rw [← hl.1] at hcle ⊢
                exact expand_relaxes conns (st.dist, pqRest) hc hcle
              · obtain ⟨dv, rv, hdv⟩ := h.visKeys v hvold
                have hdvle : dv ≤ e.1 := h.visLB v hvold dv rv hdv e hmem
                have hfoldv := hstable hdv hdvle
                rw [hfoldv] at hl
                injection hl with hl
                rw [Prod.mk.injEq] at hl
                rw [← hl.1] at hcle ⊢
                obtain ⟨d', r', hter, hle'⟩ :=
                  h.visDone v hvold dv rv hdv conns0 hconns0 c hc hcle
                obtain ⟨d'', r'', hfold', hle''⟩ := expand_dist_mono conns (st.dist, pqRest) hter
                exact ⟨d'', r'', hfold', le_trans hle'' hle'⟩
            · intro v hv'
              rcases List.mem_cons.mp hv' with hveq | hvold
              · subst hveq
                exact ⟨e.1, rs, hfolds⟩
              · obtain ⟨dv, rv, hdv⟩ := h.visKeys v hvold
                obtain ⟨d'', r'', hfold', _⟩ := expand_dist_mono conns (st.dist, pqRest) hdv
                exact ⟨d'', r'', hfold'⟩
            · obtain ⟨d0, r0, h0, hle0⟩ := h.startMem
              obtain ⟨d0', r0', h0', hle0'⟩ := expand_dist_mono conns (st.dist, pqRest) h0
              exact ⟨d0', r0', h0', le_trans hle0' hle0⟩
            · exact expand_ndk conns (st.dist, pqRest) h.ndk

/-! ### Termination adequacy: the chosen fuel always drains the queue -/

theorem dloop_adequate (g : List (String × List Conn)) (start : String) (maxT : ℚ) :
    ∀ (fuel : Nat) (st : DState), WfInv g start st →
      dMeasure g start st < fuel → (dloop g maxT fuel st).pq = [] := by
  intro fuel
  induction fuel with
  | zero => intro st _ h; exact absurd h (Nat.not_lt_zero _)
  | succ n ih =>
    intro st hwf hm
    simp only [dloop]
    cases hpop : popMin st.pq with
    | none => exact (popMin_eq_none_iff st.pq).mp hpop
    | some p =>
      obtain ⟨e, pqRest⟩ := p
      simp only
      have hlen : st.pq.length = pqRest.length + 1 := popMin_length hpop
      have hmeas : dMeasure g start st =
          ((dSupport g start).toFinset \ st.visited.toFinset).card * (1 + totalDeg g)
            + pqRest.length + 1 := by
        unfold dMeasure
        omega
      by_cases hv : e.2.1 ∈ st.visited
      · rw [if_pos hv]
        refine ih _ ⟨fun e' he' => hwf.pqSup e' (popMin_rest_mem hpop he')⟩ ?_
        unfold dMeasure
        dsimp only
        omega
      · rw [if_neg hv]
        have hsupm : e.2.1 ∈ (dSupport g start).toFinset :=
          List.mem_toFinset.mpr (hwf.pqSup e (popMin_mem hpop))
        have hnv : e.2.1 ∉ st.visited.toFinset := fun hc =>
          hv (List.mem_toFinset.mp hc)
        have hcard : ((dSupport g start).toFinset \ (e.2.1 :: st.visited).toFinset).card
            < ((dSupport g start).toFinset \ st.visited.toFinset).card := by
          have h1 : (dSupport g start).toFinset \ (e.2.1 :: st.visited).toFinset
              = ((dSupport g start).toFinset \ st.visited.toFinset).erase e.2.1 := by
            ext y
            simp only [List.toFinset_cons, Finset.mem_sdiff, Finset.mem_insert,
              Finset.mem_erase]
            tauto
          rw [h1]
          exact Finset.card_erase_lt_of_mem (Finset.mem_sdiff.mpr ⟨hsupm, hnv⟩)
        have hmul : (((dSupport g start).toFinset \ (e.2.1 :: st.visited).toFinset).card + 1) * (1 + totalDeg g)
            ≤ ((dSupport g start).toFinset \ st.visited.toFinset).card
              * (1 + totalDeg g) :=
          Nat.mul_le_mul_right _ hcard
        rw [Nat.add_mul, one_mul] at hmul
        by_cases ht : maxT < e.1
        · rw [if_pos ht]
          refine ih _ ⟨fun e' he' => hwf.pqSup e' (popMin_rest_mem hpop he')⟩ ?_
          unfold dMeasure
          dsimp only
          omega
        · rw [if_neg ht]
          cases hg : dictLookup g e.2.1 with
          | none =>
            refine ih _ ⟨fun e' he' => hwf.pqSup e' (popMin_rest_mem hpop he')⟩ ?_
            unfold dMeasure
            dsimp only
            omega
          | some conns =>
            simp only
            have hconlen : conns.length ≤ totalDeg g := conns_length_le_totalDeg hg
            have hpqlen := @expand_pq_length maxT e.2.1 e.1 e.2.2 conns (st.dist, pqRest)
            refine ih _ ⟨?_⟩ ?_
            · intro e' he'
              rcases expand_pq_new conns (st.dist, pqRest) he' with h' | ⟨c, hc, h', _⟩
              · exact hwf.pqSup e' (popMin_rest_mem hpop h')
              · subst h'
                exact List.mem_cons_of_mem _
                  ((graphTargets_mem (dictLookup_mem hg)).2 c hc)
            · unfold dMeasure
              dsimp only at hpqlen ⊢
              omega

theorem initState_wfInv (g : List (String × List Conn)) (start : String) :
    WfInv g start (initState start) := by
  refine ⟨?_⟩
  intro e he
  simp only [initState, List.mem_singleton] at he
  subst he
  exact List.mem_cons_self _ _

theorem initState_boundInv (maxT : ℚ) (start : String) (hT : 0 ≤ maxT) :
    BoundInv maxT (initState start) := by
  constructor
  · intro u d r hl
    simp only [initState, dictLookup] at hl
    by_cases hu : u = start
    · rw [if_pos hu] at hl
      injection hl with hl
      rw [Prod.mk.injEq] at hl
      rw [← hl.1]
      exact hT
    · rw [if_neg hu] at hl
      cases hl
  · intro e he
    simp only [initState, List.mem_singleton] at he
    subst he
    exact hT

theorem initState_pathInv (g : List (String × List Conn)) (start : String) :
    PathInv g start (initState start) := by
  constructor
  · intro u d r hl
    simp only [initState, dictLookup] at hl
    by_cases hu : u = start
    · rw [if_pos hu] at hl
      injection hl with hl
      rw [Prod.mk.injEq] at hl
      obtain ⟨h1, h2⟩ := hl
      subst hu
      rw [← h1, ← h2]
      refine ⟨rfl, rfl, rfl, ?_, ?_⟩
      · simp [chainFromToB]
      · intro seg hseg
        simp at hseg
    · rw [if_neg hu] at hl
      cases hl
  · intro e he
    simp only [initState, List.mem_singleton] at he
    subst he
    refine ⟨rfl, by simp [chainFromToB], ?_⟩
    intro seg hseg
    simp at hseg

theorem initState_dijInv (g : List (String × List Conn)) (start : String)
    (maxT : ℚ) (hT : 0 ≤ maxT) : DijInv g start maxT (initState start) := by
  have hlook : ∀ u d r,
      dictLookup (initState start).dist u = some (d, r) →
      u = start ∧ d = 0 ∧ r = ⟨[], 0, 0⟩ := by
    intro u d r hl
    simp only [initState, dictLookup] at hl
    by_cases hu : u = start
    · rw [if_pos hu] at hl
      injection hl with hl
      rw [Prod.mk.injEq] at hl
      exact ⟨hu, hl.1.symm, hl.2.symm⟩
    · rw [if_neg hu] at hl
      cases hl
  refine ⟨?_, ?_, ?_, ?_, ?_, ?_, ?_, ?_, ?_⟩
  · intro u d r hl
    obtain ⟨_, h2, _⟩ := hlook u d r hl
    rw [h2]
    exact ⟨le_refl 0, hT⟩
  · intro e he
    simp only [initState, List.mem_singleton] at he
    subst he
    exact ⟨le_refl 0, hT⟩
  · intro e he
    simp only [initState, List.mem_singleton] at he
    subst he
    exact ⟨0, ⟨[], 0, 0⟩, by simp [initState, dictLookup], le_refl 0⟩
  · intro u d r hl _
    obtain ⟨h1, h2, _⟩ := hlook u d r hl
    refine ⟨(0, start, []), List.mem_singleton_self _, h1.symm, h2.symm⟩
  · intro v hv
    simp [initState] at hv
  · intro v hv
    simp [initState] at hv
  · intro v hv
    simp [initState] at hv
  · exact ⟨0, ⟨[], 0, 0⟩, by simp [initState, dictLookup], le_refl 0⟩
  · simp [initState]

theorem dijkstraFuel_gt (g : List (String × List Conn)) (start : String) :
    dMeasure g start (initState start) < dijkstraFuel g start := by
  unfold dMeasure dijkstraFuel initState
  simp only [List.toFinset_nil, Finset.sdiff_empty, List.length_singleton]
  have hcard : (dSupport g start).toFinset.card ≤ (dSupport g start).length :=
    List.toFinset_card_le _
  have := Nat.mul_le_mul_right (1 + totalDeg g) hcard
  omega

/-! ### End-to-end properties of `_dijkstra_with_path` -/

theorem dijkstra_sound (O : Optimizer) (s : String) (T : ℚ) :
    ∀ sid t r, dictLookup (dijkstra_with_path O s T) sid = some (t, r) →
      r.total_time = t ∧ r.total_time = sumTimes r.segments ∧
      r.total_stops = sumStops r.segments ∧
      chainFromToB r.segments s sid = true ∧
      ∀ seg ∈ r.segments, validSegB O.network_graph seg = true := by
  intro sid t r h
  exact (dloop_path O.network_graph s T (dijkstraFuel O.network_graph s)
    (initState s) (initState_pathInv O.network_graph s)).distPath sid t r h

theorem dijkstra_le_maxT (O : Optimizer) (s : String) (T : ℚ) (hT : 0 ≤ T) :
    ∀ sid t r, dictLookup (dijkstra_with_path O s T) sid = some (t, r) → t ≤ T := by
  intro sid t r h
  exact (dloop_bound O.network_graph T (dijkstraFuel O.network_graph s)
    (initState s) (initState_boundInv T s hT)).distLe sid t r h

theorem dijkstra_complete (O : Optimizer) (s : String) (T : ℚ)
    (hw : GraphNonneg O.network_graph) (hT : 0 ≤ T) :
    ∀ (segs : List RouteSegment) (v : String), chainFromToB segs s v = true →
      (∀ seg ∈ segs, validSegB O.network_graph seg = true) →
      sumTimes segs ≤ T →
      ∃ d r, dictLookup (dijkstra_with_path O s T) v = some (d, r) ∧
        d ≤ sumTimes segs := by
  have hfin : DijInv O.network_graph s T
      (dloop O.network_graph T (dijkstraFuel O.network_graph s) (initState s)) :=
    dloop_dij O.network_graph s T hw _ _ (initState_dijInv O.network_graph s T hT)
  have hpq : (dloop O.network_graph T (dijkstraFuel O.network_graph s)
      (initState s)).pq = [] :=
    dloop_adequate O.network_graph s T _ _ (initState_wfInv O.network_graph s)
      (dijkstraFuel_gt O.network_graph s)
  have hvis : ∀ u d r, dictLookup (dijkstra_with_path O s T) u = some (d, r) →
      u ∈ (dloop O.network_graph T (dijkstraFuel O.network_graph s)
        (initState s)).visited := by
    intro u d r hl
    by_contra hu
    obtain ⟨e, he, _⟩ := hfin.fresh u d r hl hu
    rw [hpq] at he
    exact absurd he (List.not_mem_nil e)
  intro segs
  induction segs using List.reverseRecOn with
  | nil =>
    intro v hchain _ _
    have hv : v = s := by simpa [chainFromToB] using hchain
    subst hv
    obtain ⟨d0, r0, h0, hle0⟩ := hfin.startMem
    exact ⟨d0, r0, h0, hle0⟩
  | append_singleton segs seg ihs =>
    intro v hchain hvalid hsum
    obtain ⟨hchain2, hto⟩ := chainFromToB_append_split hchain
    have hsegval : validSegB O.network_graph seg = true :=
      hvalid seg (List.mem_append_right _ (List.mem_singleton_self _))
    have hsegnn : 0 ≤ seg.travel_time := validSegB_time_nonneg hw hsegval
    rw [sumTimes_append] at hsum
    have hsum2 : sumTimes segs ≤ T := by linarith
    obtain ⟨d, r, hl, hle⟩ := ihs seg.from_station hchain2
      (fun x hx => hvalid x (List.mem_append_left _ hx)) hsum2
    obtain ⟨conns, hg, hcmem⟩ := validSegB_conn hsegval
    have hvisf := hvis _ _ _ hl
    obtain ⟨d', r', hl', hle'⟩ := hfin.visDone _ hvisf d r hl conns hg
      ⟨seg.to_station, seg.travel_time, seg.railway, seg.num_stops⟩ hcmem
      (show d + seg.travel_time ≤ T by linarith)
    have hl2 : dictLookup (dijkstra_with_path O s T) seg.to_station
        = some (d', r') := hl'
    have hle2 : d' ≤ d + seg.travel_time := hle'
    rw [hto] at hl2
    refine ⟨d', r', hl2, ?_⟩
    rw [sumTimes_append]
    linarith

theorem dijkstra_reach_mono (O : Optimizer) (s : String) {T1 T2 : ℚ}
    (hw : GraphNonneg O.network_graph) (h1 : 0 ≤ T1) (h12 : T1 ≤ T2) :
    ∀ sid, (dictLookup (dijkstra_with_path O s T1) sid).isSome = true →
      (dictLookup (dijkstra_with_path O s T2) sid).isSome = true := by
  intro sid h
  rw [Option.isSome_iff_exists] at h
  obtain ⟨⟨t, r⟩, ht⟩ := h
  obtain ⟨heq, hsum, _, hchain, hvalid⟩ := dijkstra_sound O s T1 sid t r ht
  have hle := dijkstra_le_maxT O s T1 h1 sid t r ht
  obtain ⟨d, r2, hl, _⟩ := dijkstra_complete O s T2 hw (le_trans h1 h12)
    r.segments sid hchain hvalid (by rw [← hsum, heq]; linarith)
  rw [hl]
  rfl

/-- Every edge the builder creates carries a nonnegative travel time
(`2.5` for railway hops, `5.0` for transfers). -/
theorem build_graph_nonneg (stations : List StationRow) (railways : List RailwayRow) :
    GraphNonneg (build_network stations railways).network_graph := by
  intro a conns hl c hc
  have he : HasEdge (build_network stations railways).network_graph a c :=
    hasEdge_iff.mpr ⟨conns, hl, hc⟩
  rw [build_hasEdge] at he
  rcases he with ⟨_, _, rid, _, _, _, x, y, _, hc'⟩ | ⟨q, _, _, p, _, hc'⟩
  · rcases hc' with ⟨_, hc'⟩ | ⟨_, hc'⟩ <;>
      (rw [hc']; unfold railConn DEFAULT_AVG_TIME_PER_STOP; norm_num)
  · rcases hc' with ⟨_, _, hc'⟩ | ⟨_, _, hc'⟩ <;>
      (rw [hc']; unfold transferConn DEFAULT_TRANSFER_TIME; norm_num)

/-! ### Stepping the loop on concrete states -/

theorem dloop_drain (g : List (String × List Conn)) (maxT : ℚ) (fuel : Nat)
    (st : DState) (h : st.pq = []) : dloop g maxT fuel st = st := by
  cases fuel with
  | zero => rfl
  | succ n =>
    simp only [dloop]
    rw [(popMin_eq_none_iff st.pq).mpr h]

theorem dloop_step_expand (g : List (String × List Conn)) (maxT : ℚ) (fuel : Nat)
    (st : DState) (e : Entry) (pqRest : List Entry) (conns : List Conn)
    (hpop : popMin st.pq = some (e, pqRest)) (hv : e.2.1 ∉ st.visited)
    (ht : ¬ maxT < e.1) (hg : dictLookup g e.2.1 = some conns) :
    dloop g maxT (fuel + 1) st =
      dloop g maxT fuel
        ⟨(conns.foldl (relaxConn maxT e.2.1 e.1 e.2.2) (st.dist, pqRest)).1,
         (conns.foldl (relaxConn maxT e.2.1 e.1 e.2.2) (st.dist, pqRest)).2,
         e.2.1 :: st.visited⟩ := by
  simp only [dloop]
  rw [hpop]
  simp only [if_neg hv, if_neg ht]
  rw [hg]

/-! ### Concrete runs on the line fixture -/

theorem exLine_dij_A0 : dijkstra_with_path exLine "A" 0 =
    [("A", (0, ⟨[], 0, 0⟩))] := by
  have hgr : exLine.network_graph = [("A", [railConn "L" "B"]),
      ("B", [railConn "L" "A", railConn "L" "C"]), ("C", [railConn "L" "B"])] := rfl
  have hf : dijkstraFuel exLine.network_graph "A" = 42 := rfl
  have h25 : (2.5 : ℚ) = 5/2 := by norm_num
  have ht0 : ¬ ((0:ℚ) < 0) := by norm_num
  have h1 : (0:ℚ) + 5/2 = 5/2 := by norm_num
  have hc : ((5:ℚ)/2 ≤ 0) = False := by norm_num
  rw [dijkstra_with_path, hf, hgr]
  rw [dloop_step_expand
    [("A", [railConn "L" "B"]), ("B", [railConn "L" "A", railConn "L" "C"]),
     ("C", [railConn "L" "B"])] 0 41 (initState "A") (0, "A", []) []
    [railConn "L" "B"] rfl (by decide) ht0 rfl]
  have hfold : ([railConn "L" "B"].foldl (relaxConn 0 "A" 0 [])
      ((initState "A").dist, [])) = ([("A", (0, ⟨[], 0, 0⟩))], []) := by
    simp [List.foldl, relaxConn, railConn, DEFAULT_AVG_TIME_PER_STOP, initState,
      h25, h1, hc]
  rw [hfold]
  dsimp only [initState]
  rw [dloop_drain _ _ _ _ rfl]

theorem exLine_dij_A3 : dijkstra_with_path exLine "A" 3 =
    [("A", (0, ⟨[], 0, 0⟩)),
     ("B", (5/2, ⟨[⟨"A", "B", "L", 5/2, 1⟩], 5/2, 1⟩))] := by
  have hgr : exLine.network_graph = [("A", [railConn "L" "B"]),
      ("B", [railConn "L" "A", railConn "L" "C"]), ("C", [railConn "L" "B"])] := rfl
  have hf : dijkstraFuel exLine.network_graph "A" = 42 := rfl
  have h25 : (2.5 : ℚ) = 5/2 := by norm_num
  have ht0 : ¬ ((3:ℚ) < 0) := by norm_num
  have ht1 : ¬ ((3:ℚ) < 5/2) := by norm_num
  have h1 : (0:ℚ) + 5/2 = 5/2 := by norm_num
  have h2 : ((5:ℚ)/2 ≤ 3) = True := by norm_num
  have h5 : (5:ℚ)/2 + 5/2 = 5 := by norm_num
  have h6 : ((5:ℚ) ≤ 3) = False := by norm_num
  rw [dijkstra_with_path, hf, hgr]
  rw [dloop_step_expand
    [("A", [railConn "L" "B"]), ("B", [railConn "L" "A", railConn "L" "C"]),
     ("C", [railConn "L" "B"])] 3 41 (initState "A") (0, "A", []) []
    [railConn "L" "B"] rfl (by decide) ht0 rfl]
  have hfold : ([railConn "L" "B"].foldl (relaxConn 3 "A" 0 [])
      ((initState "A").dist, [])) =
      ([("A", (0, ⟨[], 0, 0⟩)),
        ("B", (5/2, ⟨[⟨"A", "B", "L", 5/2, 1⟩], 5/2, 1⟩))],
       [(5/2, "B", [⟨"A", "B", "L", 5/2, 1⟩])]) := by
    simp [List.foldl, relaxConn, relaxSeg, relaxRoute, railConn,
      DEFAULT_AVG_TIME_PER_STOP, dictLookup, updD, initState, h25, h1, h2,
      sumStops, sumTimes]
  rw [hfold]
  dsimp only [initState]
  rw [dloop_step_expand
    [("A", [railConn "L" "B"]), ("B", [railConn "L" "A", railConn "L" "C"]),
     ("C", [railConn "L" "B"])] 3 40
    ⟨[("A", (0, ⟨[], 0, 0⟩)),
      ("B", (5/2, ⟨[⟨"A", "B", "L", 5/2, 1⟩], 5/2, 1⟩))],
     [(5/2, "B", [⟨"A", "B", "L", 5/2, 1⟩])], ["A"]⟩
    (5/2, "B", [⟨"A", "B", "L", 5/2, 1⟩]) [] [railConn "L" "A", railConn "L" "C"]
    rfl (by decide) ht1 rfl]
  have hfold2 : ([railConn "L" "A", railConn "L" "C"].foldl
      (relaxConn 3 "B" (5/2) [⟨"A", "B", "L", 5/2, 1⟩])
      ([("A", (0, ⟨[], 0, 0⟩)),
        ("B", (5/2, ⟨[⟨"A", "B", "L", 5/2, 1⟩], 5/2, 1⟩))], [])) =
      ([("A", (0, ⟨[], 0, 0⟩)),
        ("B", (5/2, ⟨[⟨"A", "B", "L", 5/2, 1⟩], 5/2, 1⟩))], []) := by
    simp [List.foldl, relaxConn, railConn, DEFAULT_AVG_TIME_PER_STOP, h25, h5, h6]
  rw [hfold2]
  dsimp only
  rw [dloop_drain _ _ _ _ rfl]

theorem exLine_dij_C3 : dijkstra_with_path exLine "C" 3 =
    [("C", (0, ⟨[], 0, 0⟩)),
     ("B", (5/2, ⟨[⟨"C", "B", "L", 5/2, 1⟩], 5/2, 1⟩))] := by
  have hgr : exLine.network_graph = [("A", [railConn "L" "B"]),
      ("B", [railConn "L" "A", railConn "L" "C"]), ("C", [railConn "L" "B"])] := rfl
  have hf : dijkstraFuel exLine.network_graph "C" = 42 := rfl
  have h25 : (2.5 : ℚ) = 5/2 := by norm_num
  have ht0 : ¬ ((3:ℚ) < 0) := by norm_num
  have ht1 : ¬ ((3:ℚ) < 5/2) := by norm_num
  have h1 : (0:ℚ) + 5/2 = 5/2 := by norm_num
  have h2 : ((5:ℚ)/2 ≤ 3) = True := by norm_num
  have h5 : (5:ℚ)/2 + 5/2 = 5 := by norm_num
  have h6 : ((5:ℚ) ≤ 3) = False := by norm_num
  rw [dijkstra_with_path, hf, hgr]
  rw [dloop_step_expand
    [("A", [railConn "L" "B"]), ("B", [railConn "L" "A", railConn "L" "C"]),
     ("C", [railConn "L" "B"])] 3 41 (initState "C") (0, "C", []) []
    [railConn "L" "B"] rfl (by decide) ht0 rfl]
  have hfold : ([railConn "L" "B"].foldl (relaxConn 3 "C" 0 [])
      ((initState "C").dist, [])) =
      ([("C", (0, ⟨[], 0, 0⟩)),
        ("B", (5/2, ⟨[⟨"C", "B", "L", 5/2, 1⟩], 5/2, 1⟩))],
       [(5/2, "B", [⟨"C", "B", "L", 5/2, 1⟩])]) := by
    simp [List.foldl, relaxConn, relaxSeg, relaxRoute, railConn,
      DEFAULT_AVG_TIME_PER_STOP, dictLookup, updD, initState, h25, h1, h2,
      sumStops, sumTimes]
  rw [hfold]
  dsimp only [initState]
  rw [dloop_step_expand
    [("A", [railConn "L" "B"]), ("B", [railConn "L" "A", railConn "L" "C"]),
     ("C", [railConn "L" "B"])] 3 40
    ⟨[("C", (0, ⟨[], 0, 0⟩)),
      ("B", (5/2, ⟨[⟨"C", "B", "L", 5/2, 1⟩], 5/2, 1⟩))],
     [(5/2, "B", [⟨"C", "B", "L", 5/2, 1⟩])], ["C"]⟩
    (5/2, "B", [⟨"C", "B", "L", 5/2, 1⟩]) [] [railConn "L" "A", railConn "L" "C"]
    rfl (by decide) ht1 rfl]
  have hfold2 : ([railConn "L" "A", railConn "L" "C"].foldl
      (relaxConn 3 "B" (5/2) [⟨"C", "B", "L", 5/2, 1⟩])
      ([("C", (0, ⟨[], 0, 0⟩)),
        ("B", (5/2, ⟨[⟨"C", "B", "L", 5/2, 1⟩], 5/2, 1⟩))], [])) =
      ([("C", (0, ⟨[], 0, 0⟩)),
        ("B", (5/2, ⟨[⟨"C", "B", "L", 5/2, 1⟩], 5/2, 1⟩))], []) := by
    simp [List.foldl, relaxConn, railConn, DEFAULT_AVG_TIME_PER_STOP, h25, h5, h6]
  rw [hfold2]
  dsimp only
  rw [dloop_drain _ _ _ _ rfl]

theorem exLine_dij_A2 : dijkstra_with_path exLine "A" 2 =
    [("A", (0, ⟨[], 0, 0⟩))] := by
  have hgr : exLine.network_graph = [("A", [railConn "L" "B"]),
      ("B", [railConn "L" "A", railConn "L" "C"]), ("C", [railConn "L" "B"])] := rfl
  have hf : dijkstraFuel exLine.network_graph "A" = 42 := rfl
  have h25 : (2.5 : ℚ) = 5/2 := by norm_num
  have ht0 : ¬ ((2:ℚ) < 0) := by norm_num
  have h1 : (0:ℚ) + 5/2 = 5/2 := by norm_num
  have hc : ((5:ℚ)/2 ≤ 2) = False := by norm_num
  rw [dijkstra_with_path, hf, hgr]
  rw [dloop_step_expand
    [("A", [railConn "L" "B"]), ("B", [railConn "L" "A", railConn "L" "C"]),
     ("C", [railConn "L" "B"])] 2 41 (initState "A") (0, "A", []) []
    [railConn "L" "B"] rfl (by decide) ht0 rfl]
  have hfold : ([railConn "L" "B"].foldl (relaxConn 2 "A" 0 [])
      ((initState "A").dist, [])) = ([("A", (0, ⟨[], 0, 0⟩))], []) := by
    simp [List.foldl, relaxConn, railConn, DEFAULT_AVG_TIME_PER_STOP, initState,
      h25, h1, hc]
  rw [hfold]
  dsimp only [initState]
  rw [dloop_drain _ _ _ _ rfl]

theorem exLine_dij_C2 : dijkstra_with_path exLine "C" 2 =
    [("C", (0, ⟨[], 0, 0⟩))] := by
  have hgr : exLine.network_graph = [("A", [railConn "L" "B"]),
      ("B", [railConn "L" "A", railConn "L" "C"]), ("C", [railConn "L" "B"])] := rfl
  have hf : dijkstraFuel exLine.network_graph "C" = 42 := rfl
  have h25 : (2.5 : ℚ) = 5/2 := by norm_num
  have ht0 : ¬ ((2:ℚ) < 0) := by norm_num
  have h1 : (0:ℚ) + 5/2 = 5/2 := by norm_num
  have hc : ((5:ℚ)/2 ≤ 2) = False := by norm_num
  rw [dijkstra_with_path, hf, hgr]
  rw [dloop_step_expand
    [("A", [railConn "L" "B"]), ("B", [railConn "L" "A", railConn "L" "C"]),
     ("C", [railConn "L" "B"])] 2 41 (initState "C") (0, "C", []) []
    [railConn "L" "B"] rfl (by decide) ht0 rfl]
  have hfold : ([railConn "L" "B"].foldl (relaxConn 2 "C" 0 [])
      ((initState "C").dist, [])) = ([("C", (0, ⟨[], 0, 0⟩))], []) := by
    simp [List.foldl, relaxConn, railConn, DEFAULT_AVG_TIME_PER_STOP, initState,
      h25, h1, hc]
  rw [hfold]
  dsimp only [initState]
  rw [dloop_drain _ _ _ _ rfl]

theorem exLine_lookup_B3 : dictLookup (dijkstra_with_path exLine "A" 3) "B"
    = some (5/2, ⟨[⟨"A", "B", "L", 5/2, 1⟩], 5/2, 1⟩) := by
  rw [exLine_dij_A3]
  simp [dictLookup]

theorem exLine_find3 : find_optimal_stations exLine "A" "C" 10 3 =
    [⟨"B", some "Beta", ⟨[⟨"A", "B", "L", 5/2, 1⟩], 5/2, 1⟩,
      ⟨[⟨"C", "B", "L", 5/2, 1⟩], 5/2, 1⟩, 5, 0, 1⟩] := by
  have hsi : exLine.station_info =
      [("A", ⟨some "Alpha", none, none, none, none⟩),
       ("B", ⟨some "Beta", none, none, none, none⟩),
       ("C", ⟨some "Gamma", none, none, none, none⟩)] := rfl
  have h5 : (5:ℚ)/2 + 5/2 = 5 := by norm_num
  have hsub : (5:ℚ)/2 - 5/2 = 0 := by norm_num
  have h0 : ¬ ((0:ℚ) < 0) := by norm_num
  have hdiv : (0:ℚ) / 3 = 0 := by norm_num
  have h1m : (1:ℚ) - 0 = 1 := by norm_num
  simp only [find_optimal_stations, exLine_dij_A3, exLine_dij_C3]
  simp [dictLookup, mkMeetingPoint, hsi, ratAbs, pySorted, sinsert, candLeB,
    stRow, h5, hsub, h0, hdiv, h1m]

theorem exLine_find2 : find_optimal_stations exLine "A" "C" 10 2 = [] := by
  simp only [find_optimal_stations, exLine_dij_A2, exLine_dij_C2]
  simp [dictLookup, pySorted]

/-! ### The stable sort and its order -/

theorem mem_sinsert {α : Type} (le : α → α → Bool) (x : α) :
    ∀ (l : List α) (y : α), y ∈ sinsert le x l ↔ y = x ∨ y ∈ l := by
  intro l
  induction l with
  | nil => intro y; simp [sinsert]
  | cons z zs ih =>
    intro y
    by_cases h : le x z = true
    · simp [sinsert, h]
    · simp only [sinsert, if_neg h, List.mem_cons, ih]
      tauto

theorem mem_pySorted {α : Type} (le : α → α → Bool) :
    ∀ (l : List α) (y : α), y ∈ pySorted le l ↔ y ∈ l := by
  intro l
  induction l with
  | nil => intro y; simp [pySorted]
  | cons z zs ih =>
    intro y
    simp only [pySorted, mem_sinsert, List.mem_cons, ih]

theorem chain'_sinsert {α : Type} (le : α → α → Bool)
    (htot : ∀ u v, le u v = true ∨ le v u = true) (x : α) :
    ∀ l : List α, List.Chain' (fun u v => le u v = true) l →
      List.Chain' (fun u v => le u v = true) (sinsert le x l) := by
  intro l
  induction l with
  | nil => intro _; simp [sinsert]
  | cons z zs ih =>
    intro hch
    by_cases h : le x z = true
    · rw [sinsert, if_pos h]
      exact List.chain'_cons.mpr ⟨h, hch⟩
    · rw [sinsert, if_neg h]
      refine List.chain'_cons'.mpr ⟨?_, ih hch.tail⟩
      intro y hy
      cases zs with
      | nil =>
        simp only [sinsert, List.head?_cons, Option.mem_def,
          Option.some.injEq] at hy
        subst hy
        exact (htot x z).resolve_left h
      | cons w ws =>
        by_cases h2 : le x w = true
        · rw [sinsert, if_pos h2] at hy
          simp only [List.head?_cons, Option.mem_def, Option.some.injEq] at hy
          subst hy
          exact (htot x z).resolve_left h
        · rw [sinsert, if_neg h2] at hy
          simp only [List.head?_cons, Option.mem_def, Option.some.injEq] at hy
          subst hy
          exact (List.chain'_cons.mp hch).1

theorem chain'_pySorted {α : Type} (le : α → α → Bool)
    (htot : ∀ u v, le u v = true ∨ le v u = true) :
    ∀ l : List α, List.Chain' (fun u v => le u v = true) (pySorted le l) := by
  intro l
  induction l with
  | nil => simp [pySorted]
  | cons z zs ih => exact chain'_sinsert le htot z _ ih

theorem candLeB_true_iff (x y : MeetingPoint) :
    candLeB x y = true ↔ (x.total_time < y.total_time ∨
      (x.total_time = y.total_time ∧ x.time_difference ≤ y.time_difference)) := by
  simp only [candLeB, Bool.not_eq_true', Bool.or_eq_false_iff,
    Bool.and_eq_false_iff, decide_eq_false_iff_not, not_lt, beq_iff_eq,
    beq_eq_false_iff_ne]
  constructor
  · rintro ⟨h1, h2 | h2⟩
    · exact Or.inl (lt_of_le_of_ne h1 (fun he => h2 he.symm))
    · rcases eq_or_lt_of_le h1 with heq | hlt
      · exact Or.inr ⟨heq, h2⟩
      · exact Or.inl hlt
  · rintro (h | ⟨heq, hle⟩)
    · exact ⟨le_of_lt h, Or.inl (ne_of_gt h)⟩
    · exact ⟨le_of_eq heq, Or.inr hle⟩

theorem candLeB_total (x y : MeetingPoint) :
    candLeB x y = true ∨ candLeB y x = true := by
  rw [candLeB_true_iff, candLeB_true_iff]
  rcases lt_trichotomy x.total_time y.total_time with h | h | h
  · exact Or.inl (Or.inl h)
  · rcases le_total x.time_difference y.time_difference with hd | hd
    · exact Or.inl (Or.inr ⟨h, hd⟩)
    · exact Or.inr (Or.inr ⟨h.symm, hd⟩)
  · exact Or.inr (Or.inl h)

/-! ### Candidate membership in the ranking -/

theorem mem_build_cands {O : Optimizer} {T : ℚ}
    {routesB : List (String × ℚ × Route)} {a b : String} :
    ∀ {l : List (String × ℚ × Route)} {mp : MeetingPoint},
      mp ∈ l.foldr (fun p acc =>
        if p.1 ≠ a ∧ p.1 ≠ b then
          match dictLookup routesB p.1 with
          | some tr => mkMeetingPoint O T p.1 p.2.1 p.2.2 tr.1 tr.2 :: acc
          | none => acc
        else acc) [] →
      ∃ p ∈ l, ∃ tr, dictLookup routesB p.1 = some tr ∧
        mp = mkMeetingPoint O T p.1 p.2.1 p.2.2 tr.1 tr.2 := by
  intro l
  induction l with
  | nil => intro mp h; simp [List.foldr] at h
  | cons q l ih =>
    intro mp h
    rw [List.foldr_cons] at h
    by_cases hq : q.1 ≠ a ∧ q.1 ≠ b
    · rw [if_pos hq] at h
      cases hlk : dictLookup routesB q.1 with
      | none =>
        rw [hlk] at h
        obtain ⟨p, hp, tr, htr, heq⟩ := ih h
        exact ⟨p, List.mem_cons_of_mem _ hp, tr, htr, heq⟩
      | some tr =>
        rw [hlk] at h
        rcases List.mem_cons.mp h with heq | h2
        · exact ⟨q, List.mem_cons_self _ _, tr, hlk, heq⟩
        · obtain ⟨p, hp, tr2, htr2, heq2⟩ := ih h2
          exact ⟨p, List.mem_cons_of_mem _ hp, tr2, htr2, heq2⟩
    · rw [if_neg hq] at h
      obtain ⟨p, hp, tr, htr, heq⟩ := ih h
      exact ⟨p, List.mem_cons_of_mem _ hp, tr, htr, heq⟩

theorem dijkstra_ndk (O : Optimizer) (s : String) (T : ℚ) :
    ((dijkstra_with_path O s T).map Prod.fst).Nodup :=
  dloop_ndk O.network_graph T (dijkstraFuel O.network_graph s) (initState s)
    (by simp [initState])

theorem mem_find_optimal {O : Optimizer} {a b : String} {top_n : Nat} {T : ℚ}
    {mp : MeetingPoint} (h : mp ∈ find_optimal_stations O a b top_n T) :
    ∃ sid ta ra tb rb,
      dictLookup (dijkstra_with_path O a T) sid = some (ta, ra) ∧
      dictLookup (dijkstra_with_path O b T) sid = some (tb, rb) ∧
      mp = mkMeetingPoint O T sid ta ra tb rb := by
  simp only [find_optimal_stations] at h
  have h2 := List.take_subset _ _ h
  rw [mem_pySorted] at h2
  obtain ⟨p, hp, tr, htr, heq⟩ := mem_build_cands h2
  refine ⟨p.1, p.2.1, p.2.2, tr.1, tr.2, ?_, htr, heq⟩
  exact mem_lookup_of_nodupkeys (dijkstra_ndk O a T) hp

theorem dijkstra_nonneg (O : Optimizer) (s : String) (T : ℚ)
    (hw : GraphNonneg O.network_graph) (hT : 0 ≤ T) :
    ∀ sid t r, dictLookup (dijkstra_with_path O s T) sid = some (t, r) → 0 ≤ t := by
  intro sid t r h
  exact ((dloop_dij O.network_graph s T hw (dijkstraFuel O.network_graph s)
    (initState s) (initState_dijInv O.network_graph s T hT)).bound sid t r h).1

/-! ### Fetch resilience machinery -/

theorem fetch_operator_data_ok {ρ : Type}
    (fetch : String → String → Except String (List ρ)) {k : String}
    (hk : k ∈ OPERATORS) : ∃ d, fetch_operator_data fetch k = .ok d := by
  unfold fetch_operator_data
  rw [if_pos hk]
  cases fetch "Station" k with
  | error e => exact ⟨⟨[], []⟩, rfl⟩
  | ok stations =>
    cases fetch "Railway" k with
    | error e => exact ⟨⟨[], []⟩, rfl⟩
    | ok railways => exact ⟨⟨stations, railways⟩, rfl⟩

theorem fetchAll_go {ρ : Type} (fetch : String → String → Except String (List ρ)) :
    ∀ (keys : List String) (acc : List (String × OperatorData ρ)),
      (∀ k ∈ keys, k ∈ OPERATORS) →
      ∃ m, keys.foldlM (fun acc k => (fetch_operator_data fetch k).map
            fun d => updD acc k fun _ => d) acc = .ok m ∧
        (∀ k ∈ keys, ∃ d, dictLookup m k = some d ∧
          fetch_operator_data fetch k = .ok d) ∧
        (∀ k, k ∉ keys → dictLookup m k = dictLookup acc k) := by
  intro keys
  induction keys with
  | nil =>
    intro acc _
    exact ⟨acc, rfl, by simp, fun k _ => rfl⟩
  | cons k0 ks ih =>
    intro acc hk
    obtain ⟨d0, hd0⟩ := fetch_operator_data_ok fetch (hk k0 (List.mem_cons_self _ _))
    obtain ⟨m, hm, hmem, hfr⟩ := ih (updD acc k0 fun _ => d0)
      (fun k hk2 => hk k (List.mem_cons_of_mem _ hk2))
    refine ⟨m, ?_, ?_, ?_⟩
    · rw [List.foldlM_cons, hd0]
      exact hm
    · intro k hkmem
      rcases List.mem_cons.mp hkmem with rfl | hks
      · by_cases hin : k ∈ ks
        · exact hmem k hin
        · refine ⟨d0, ?_, hd0⟩
          rw [hfr k hin, dictLookup_updD]
          simp
      · exact hmem k hks
    · intro k hknot
      have h1 : k ∉ ks := fun hc => hknot (List.mem_cons_of_mem _ hc)
      have h2 : k ≠ k0 := fun hc => hknot (hc ▸ List.mem_cons_self _ _)
      rw [hfr k h1, dictLookup_updD, if_neg h2]

/-! ## Claim theorems -/

/-- C2: for every ranking call on a nonnegative-weight graph (as every
built network is) with `max_time > 0`, each returned `MeetingPoint` has
`time_difference ≤ max_time` and hence `balance_score` within `[0, 1]` —
no clamping is needed because each leg is individually bounded by
`max_time`. -/
theorem find_optimal_balance_bounds (O : Optimizer)
    (work_station_a work_station_b : String) (top_n : Nat) (max_time : ℚ)
    (hw : GraphNonneg O.network_graph) (hT : 0 < max_time) (mp : MeetingPoint)
    (hmp : mp ∈ find_optimal_stations O work_station_a work_station_b
      top_n max_time) :
    mp.time_difference ≤ max_time ∧
      0 ≤ mp.balance_score ∧ mp.balance_score ≤ 1 := by
  obtain ⟨sid, ta, ra, tb, rb, hla, hlb, heq⟩ := mem_find_optimal hmp
  have hTnn : 0 ≤ max_time := le_of_lt hT
  have hta1 := dijkstra_le_maxT O work_station_a max_time hTnn sid ta ra hla
  have htb1 := dijkstra_le_maxT O work_station_b max_time hTnn sid tb rb hlb
  have hta0 := dijkstra_nonneg O work_station_a max_time hw hTnn sid ta ra hla
  have htb0 := dijkstra_nonneg O work_station_b max_time hw hTnn sid tb rb hlb
  have hdiff : mp.time_difference = ratAbs (ta - tb) := by
    rw [heq]
    rfl
  have hbal : mp.balance_score = 1 - ratAbs (ta - tb) / max_time := by
    rw [heq]
    rfl
  have habs : ratAbs (ta - tb) ≤ max_time := by
    unfold ratAbs
    by_cases h : ta - tb < 0
    · rw [if_pos h]; linarith
    · rw [if_neg h]; linarith
  have habs0 : 0 ≤ ratAbs (ta - tb) := by
    unfold ratAbs
    by_cases h : ta - tb < 0
    · rw [if_pos h]; linarith
    · rw [if_neg h]; linarith
  have hq1 : ratAbs (ta - tb) / max_time ≤ 1 := (div_le_one hT).mpr habs
  have hq0 : 0 ≤ ratAbs (ta - tb) / max_time := div_nonneg habs0 hTnn
  rw [hdiff, hbal]
  exact ⟨habs, by linarith, by linarith⟩

theorem find_optimal_balance_bounds_witness :
    (0:ℚ) < 3 ∧
    (⟨"B", some "Beta", ⟨[⟨"A", "B", "L", 5/2, 1⟩], 5/2, 1⟩,
       ⟨[⟨"C", "B", "L", 5/2, 1⟩], 5/2, 1⟩, 5, 0, 1⟩ : MeetingPoint) ∈
      find_optimal_stations exLine "A" "C" 10 3 ∧
    ((⟨"B", some "Beta", ⟨[⟨"A", "B", "L", 5/2, 1⟩], 5/2, 1⟩,
        ⟨[⟨"C", "B", "L", 5/2, 1⟩], 5/2, 1⟩, 5, 0, 1⟩ :
        MeetingPoint).time_difference ≤ 3 ∧
      0 ≤ (⟨"B", some "Beta", ⟨[⟨"A", "B", "L", 5/2, 1⟩], 5/2, 1⟩,
        ⟨[⟨"C", "B", "L", 5/2, 1⟩], 5/2, 1⟩, 5, 0, 1⟩ :
        MeetingPoint).balance_score ∧
      (⟨"B", some "Beta", ⟨[⟨"A", "B", "L", 5/2, 1⟩], 5/2, 1⟩,
        ⟨[⟨"C", "B", "L", 5/2, 1⟩], 5/2, 1⟩, 5, 0, 1⟩ :
        MeetingPoint).balance_score ≤ 1) := by
  have hmem : (⟨"B", some "Beta", ⟨[⟨"A", "B", "L", 5/2, 1⟩], 5/2, 1⟩,
      ⟨[⟨"C", "B", "L", 5/2, 1⟩], 5/2, 1⟩, 5, 0, 1⟩ : MeetingPoint) ∈
      find_optimal_stations exLine "A" "C" 10 3 := by
    rw [exLine_find3]
    exact List.mem_singleton_self _
  exact ⟨by norm_num, hmem,
    find_optimal_balance_bounds exLine "A" "C" 10 3
      (build_graph_nonneg exLineStations exLineRailways) (by norm_num) _ hmem⟩

/-- C3: for every start station and nonnegative bound `T`, every station in
the mapping returned by `_dijkstra_with_path(start, max_time=T)` is paired
with a best time that does not exceed `T`. -/
theorem dijkstra_respects_max_time (O : Optimizer) (start_station : String)
    (T : ℚ) (hT : 0 ≤ T) (sid : String) (t : ℚ) (r : Route)
    (h : dictLookup (dijkstra_with_path O start_station T) sid = some (t, r)) :
    t ≤ T :=
  dijkstra_le_maxT O start_station T hT sid t r h

theorem dijkstra_respects_max_time_witness :
    (0:ℚ) ≤ 0 ∧
    dictLookup (dijkstra_with_path exLine "A" 0) "A" = some (0, ⟨[], 0, 0⟩) ∧
    (0:ℚ) ≤ 0 := by
  have h : dictLookup (dijkstra_with_path exLine "A" 0) "A"
      = some (0, ⟨[], 0, 0⟩) := by
    rw [exLine_dij_A0]
    simp [dictLookup]
  exact ⟨le_refl 0, h,
    dijkstra_respects_max_time exLine "A" 0 (le_refl 0) "A" 0 ⟨[], 0, 0⟩ h⟩

/-- C4: every `(best time, Route)` pair in the `_dijkstra_with_path` mapping
is internally consistent: the segments form a contiguous path from the start
station to the mapped station along actual graph edges, `total_time` equals
both the segment-time sum and the recorded best time, and `total_stops`
equals the segment-stop sum. -/
theorem dijkstra_routes_consistent (O : Optimizer) (start_station : String)
    (max_time : ℚ) (sid : String) (t : ℚ) (r : Route)
    (h : dictLookup (dijkstra_with_path O start_station max_time) sid
      = some (t, r)) :
    r.total_time = t ∧ r.total_time = sumTimes r.segments ∧
    r.total_stops = sumStops r.segments ∧
    chainFromToB r.segments start_station sid = true ∧
    ∀ seg ∈ r.segments, validSegB O.network_graph seg = true :=
  dijkstra_sound O start_station max_time sid t r h

theorem dijkstra_routes_consistent_witness :
    dictLookup (dijkstra_with_path exLine "A" 3) "B"
      = some (5/2, ⟨[⟨"A", "B", "L", 5/2, 1⟩], 5/2, 1⟩) ∧
    ((⟨[⟨"A", "B", "L", 5/2, 1⟩], 5/2, 1⟩ : Route).total_time = 5/2 ∧
     (⟨[⟨"A", "B", "L", 5/2, 1⟩], 5/2, 1⟩ : Route).total_time =
       sumTimes (⟨[⟨"A", "B", "L", 5/2, 1⟩], 5/2, 1⟩ : Route).segments ∧
     (⟨[⟨"A", "B", "L", 5/2, 1⟩], 5/2, 1⟩ : Route).total_stops =
       sumStops (⟨[⟨"A", "B", "L", 5/2, 1⟩], 5/2, 1⟩ : Route).segments ∧
     chainFromToB (⟨[⟨"A", "B", "L", 5/2, 1⟩], 5/2, 1⟩ : Route).segments
       "A" "B" = true ∧
     ∀ seg ∈ (⟨[⟨"A", "B", "L", 5/2, 1⟩], 5/2, 1⟩ : Route).segments,
       validSegB exLine.network_graph seg = true) :=
  ⟨exLine_lookup_B3,
   dijkstra_routes_consistent exLine "A" 3 "B" (5/2)
     ⟨[⟨"A", "B", "L", 5/2, 1⟩], 5/2, 1⟩ exLine_lookup_B3⟩

/-- C5: the candidate list returned by `find_optimal_stations` is sorted so
that each adjacent pair `(a, b)` satisfies `a.total_time < b.total_time` or
`a.total_time = b.total_time ∧ a.time_difference ≤ b.time_difference`, and
at most `top_n` candidates are returned. -/
theorem find_optimal_sorted (O : Optimizer)
    (work_station_a work_station_b : String) (top_n : Nat) (max_time : ℚ) :
    (find_optimal_stations O work_station_a work_station_b top_n
        max_time).length ≤ top_n ∧
    List.Chain' (fun x y => x.total_time < y.total_time ∨
        (x.total_time = y.total_time ∧ x.time_difference ≤ y.time_difference))
      (find_optimal_stations O work_station_a work_station_b top_n max_time) := by
  constructor
  · simp only [find_optimal_stations, List.length_take]
    exact Nat.min_le_left _ _
  · simp only [find_optimal_stations]
    refine List.Chain'.imp (fun x y h => (candLeB_true_iff x y).mp h) ?_
    exact List.Chain'.prefix (chain'_pySorted candLeB candLeB_total _)
      ( List.take_prefix _ _)

/-- C6: reachability of `_dijkstra_with_path` on a fixed nonnegative-weight
graph is monotone in the time bound: every station id mapped under bound
`T1` is also mapped under any bound `T2 ≥ T1`. -/
theorem dijkstra_reachability_monotone (O : Optimizer) (start_station : String)
    (T1 T2 : ℚ) (hw : GraphNonneg O.network_graph) (h1 : 0 ≤ T1)
    (h12 : T1 ≤ T2) (sid : String)
    (h : (dictLookup (dijkstra_with_path O start_station T1) sid).isSome
      = true) :
    (dictLookup (dijkstra_with_path O start_station T2) sid).isSome = true :=
  dijkstra_reach_mono O start_station hw h1 h12 sid h

theorem dijkstra_reachability_monotone_witness :
    ((0:ℚ) ≤ 0 ∧ (0:ℚ) ≤ 3 ∧
      (dictLookup (dijkstra_with_path exLine "A" 0) "A").isSome = true) ∧
    (dictLookup (dijkstra_with_path exLine "A" 3) "A").isSome = true := by
  have h : (dictLookup (dijkstra_with_path exLine "A" 0) "A").isSome = true := by
    rw [exLine_dij_A0]
    simp [dictLookup]
  exact ⟨⟨le_refl 0, by norm_num, h⟩,
    dijkstra_reachability_monotone exLine "A" 0 3
      (build_graph_nonneg exLineStations exLineRailways) (le_refl 0)
      (by norm_num) "A" h⟩

/-- C8: the analyze endpoint maps domain-validation failures to HTTP errors
exactly as specified: equal work stations give 400, an unknown station A
gives 404 naming "Station A", and an empty candidate list gives 404
suggesting a larger `max_time`. -/
theorem analyze_commute_error_mapping (O : Optimizer) (request : AnalyzeRequest) :
    (request.station_a = request.station_b →
      analyze_commute O request =
        .error ⟨400, "Work stations must be different"⟩) ∧
    (request.station_a ≠ request.station_b →
      isKey O.station_info request.station_a = false →
      analyze_commute O request =
        .error ⟨404, "Station A not found: " ++ request.station_a⟩) ∧
    (request.station_a ≠ request.station_b →
      isKey O.station_info request.station_a = true →
      isKey O.station_info request.station_b = true →
      find_optimal_stations O request.station_a request.station_b
        request.top_n request.max_time = [] →
      analyze_commute O request =
        .error ⟨404,
          "No common reachable stations found. Try increasing max_time."⟩) := by
  refine ⟨?_, ?_, ?_⟩
  · intro h
    unfold analyze_commute
    rw [if_pos h]
  · intro hne hka
    unfold analyze_commute
    rw [if_neg hne, if_pos (by simp [hka])]
  · intro hne hka hkb hemp
    unfold analyze_commute
    rw [if_neg hne, if_neg (by simp [hka]), if_neg (by simp [hkb])]
    simp [hemp]

theorem analyze_commute_error_mapping_witness :
    analyze_commute exLine ⟨"A", "A", 10, 120⟩ =
      .error ⟨400, "Work stations must be different"⟩ ∧
    analyze_commute exLine ⟨"Z", "C", 10, 120⟩ =
      .error ⟨404, "Station A not found: " ++ "Z"⟩ ∧
    analyze_commute exLine ⟨"A", "C", 10, 2⟩ =
      .error ⟨404,
        "No common reachable stations found. Try increasing max_time."⟩ :=
  ⟨(analyze_commute_error_mapping exLine ⟨"A", "A", 10, 120⟩).1 rfl,
   (analyze_commute_error_mapping exLine ⟨"Z", "C", 10, 120⟩).2.1
     (by decide) (by decide),
   (analyze_commute_error_mapping exLine ⟨"A", "C", 10, 2⟩).2.2
     (by decide) (by decide) (by decide) exLine_find2⟩

/-- C9: over any list of known operator keys, `fetch_all_operators` always
succeeds; a failing fetch degrades only that operator to an empty-but-present
entry, while every other operator entry is exactly what its own fetches
produced. -/
theorem fetch_all_operators_resilient {ρ : Type}
    (fetch : String → String → Except String (List ρ))
    (operator_keys : List String) (hk : ∀ k ∈ operator_keys, k ∈ OPERATORS) :
    ∃ m, fetch_all_operators fetch operator_keys = .ok m ∧
      ∀ k ∈ operator_keys, ∃ d, dictLookup m k = some d ∧
        (∀ err, fetch "Station" k = .error err → d = ⟨[], []⟩) ∧
        (∀ stations err, fetch "Station" k = .ok stations →
          fetch "Railway" k = .error err → d = ⟨[], []⟩) ∧
        (∀ stations railways, fetch "Station" k = .ok stations →
          fetch "Railway" k = .ok railways → d = ⟨stations, railways⟩) := by
  obtain ⟨m, hm, hmem, _⟩ := fetchAll_go fetch operator_keys [] hk
  refine ⟨m, hm, ?_⟩
  intro k hkm
  obtain ⟨d, hld, hfd⟩ := hmem k hkm
  rw [fetch_operator_data, if_pos (hk k hkm)] at hfd
  refine ⟨d, hld, ?_, ?_, ?_⟩
  · intro err herr
    rw [herr] at hfd
    simp only [Except.ok.injEq] at hfd
    exact hfd.symm
  · intro stations err hs hr
    rw [hs, hr] at hfd
    simp only [Except.ok.injEq] at hfd
    exact hfd.symm
  · intro stations railways hs hr
    rw [hs, hr] at hfd
    simp only [Except.ok.injEq] at hfd
    exact hfd.symm

theorem fetch_all_operators_resilient_witness :
    fetch_all_operators fetchW OPERATORS =
      .ok [("JR_EAST", ⟨[], []⟩), ("TOKYO_METRO", ⟨[10], [20]⟩),
           ("KEIKYU", ⟨[30], [40]⟩)] ∧
    (∃ m, fetch_all_operators fetchW OPERATORS = .ok m ∧
      ∀ k ∈ OPERATORS, ∃ d, dictLookup m k = some d ∧
        (∀ err, fetchW "Station" k = .error err → d = ⟨[], []⟩) ∧
        (∀ stations err, fetchW "Station" k = .ok stations →
          fetchW "Railway" k = .error err → d = ⟨[], []⟩) ∧
        (∀ stations railways, fetchW "Station" k = .ok stations →
          fetchW "Railway" k = .ok railways → d = ⟨stations, railways⟩)) :=
  ⟨rfl, fetch_all_operators_resilient fetchW OPERATORS (fun _ hk => hk)⟩

end Dousei
